import Mathlib

/-!
Shallow embedding of the binary min-heap priority queue implemented in
src/lib/priority-queue.c, together with proofs of the specification claims.

Modelling conventions:
* A C PQ_Node (payload `data`, key `priority`, both C `int`) is a pair of
  unbounded integers: the code only stores and compares these fields, so no
  overflow can occur and Int is an exact model.
* The C heap field is an array of PQ_Node pointers; `heap` here is the list
  of node values held in the initialized slots of that backing array, in
  index order.  `current_size` and `capacity` are the two counters of the C
  struct; both are non-negative in every reachable state, hence Nat.
* A memory read through an index that can be out of bounds in a reachable
  call is modelled with Option (`none` = out-of-bounds access).  Reads that
  are in bounds in every reachable call are modelled with the defaulted
  lookup `nth`.
-/

structure PQ_Node where
  data : Int
  priority : Int
deriving DecidableEq, Repr

structure PQ_pq where
  current_size : Nat
  capacity : Nat
  heap : List PQ_Node
deriving DecidableEq, Repr

/-- Default node used by the defaulted lookup `nth`. -/
def dnode : PQ_Node := { data := 0, priority := 0 }

/-- Value stored at index `i` of the backing array. -/
def nth (h : List PQ_Node) (i : Nat) : PQ_Node := (h[i]?).getD dnode

/-- Priority stored at index `i` of the backing array. -/
def prioL (h : List PQ_Node) (i : Nat) : Int := (nth h i).priority

/-- Read through a C `int` index: negative or too-large indices are
out-of-bounds accesses, modelled as `none`. -/
def getI (h : List PQ_Node) (i : Int) : Option PQ_Node :=
  if i < 0 then none else h[i.toNat]?

/-- C `_swap(&heap[i], &heap[j])`: exchange the two slots via a temporary. -/
def swapL (h : List PQ_Node) (i j : Nat) : List PQ_Node :=
  (h.set i (nth h j)).set j (nth h i)

/-- C `q->heap[i] = x`.  The model list holds the initialized slots of the
backing array, so a write at the first uninitialized index appends; in every
reachable call `i ≤ h.length`. -/
def writeAt (h : List PQ_Node) (i : Nat) (x : PQ_Node) : List PQ_Node :=
  if i < h.length then h.set i x else h ++ [x]

/-- PQ_INITIAL_SIZE from src/lib/priority-queue.h. -/
def PQ_INITIAL_SIZE : Nat := 10

/-- PQ_INCREMENT_SIZE from src/lib/priority-queue.h. -/
def PQ_INCREMENT_SIZE : Nat := 10

/-- C `_parent`: `(i - 1) / 2` with C truncation; for `i = 0` the C value is
`(-1)/2 = 0`, which Nat subtraction also gives. -/
def _parent (i : Nat) : Nat := (i - 1) / 2

/-- C `_left_child`: `2*i + 1`. -/
def _left_child (i : Nat) : Nat := 2 * i + 1

/-- C `_right_child`: `2*i + 2`. -/
def _right_child (i : Nat) : Nat := 2 * i + 2

/-- C `_shift_up`: bubble the element at `i` up while it is smaller than its
parent. -/
def _shift_up (i : Nat) (q : PQ_pq) : PQ_pq :=
  if h : 0 < i ∧ prioL q.heap (_parent i) > prioL q.heap i then
    _shift_up (_parent i) { q with heap := swapL q.heap (_parent i) i }
  else q
termination_by i
decreasing_by simp only [_parent]; omega

/-- The `max_i` computed by the body of C `_shift_down`: start from `i`,
replace by the left child `2i+1` if that index passes the guard
`l <= current_size` and has strictly smaller priority, then likewise by the
right child `2i+2` against the current candidate. -/
def smallestIdx (q : PQ_pq) (i : Nat) : Nat :=
  if _right_child i ≤ q.current_size ∧
      prioL q.heap (_right_child i) <
        prioL q.heap (if _left_child i ≤ q.current_size ∧ prioL q.heap (_left_child i) < prioL q.heap i
          then _left_child i else i)
  then _right_child i
  else if _left_child i ≤ q.current_size ∧ prioL q.heap (_left_child i) < prioL q.heap i
    then _left_child i else i

/-- C `_shift_down`: as written in the source, with the lenient child guard
`child index <= q->current_size`. -/
def _shift_down (i : Nat) (q : PQ_pq) : PQ_pq :=
  if h : i ≠ smallestIdx q i then
    _shift_down (smallestIdx q i) { q with heap := swapL q.heap i (smallestIdx q i) }
  else q
termination_by q.current_size + 1 - i
decreasing_by
  simp only [smallestIdx, _left_child, _right_child] at h ⊢
  split_ifs at h ⊢ <;> omega

/-- Modelled from the claim text (C6, C10): the sift-down variant whose child
guard is strict, examining a child index only when it lies within the live
range `[0, current_size - 1]`.  This definition exists solely to be compared
with `_shift_down` as the source defines it. -/
def smallestIdxStrict (q : PQ_pq) (i : Nat) : Nat :=
  if _right_child i < q.current_size ∧
      prioL q.heap (_right_child i) <
        prioL q.heap (if _left_child i < q.current_size ∧ prioL q.heap (_left_child i) < prioL q.heap i
          then _left_child i else i)
  then _right_child i
  else if _left_child i < q.current_size ∧ prioL q.heap (_left_child i) < prioL q.heap i
    then _left_child i else i

/-- Modelled from the claim text (C6, C10): sift-down with the strict guard. -/
def _shift_down_strict (i : Nat) (q : PQ_pq) : PQ_pq :=
  if h : i ≠ smallestIdxStrict q i then
    _shift_down_strict (smallestIdxStrict q i) { q with heap := swapL q.heap i (smallestIdxStrict q i) }
  else q
termination_by q.current_size + 1 - i
decreasing_by
  simp only [smallestIdxStrict, _left_child, _right_child] at h ⊢
  split_ifs at h ⊢ <;> omega

/-- C `PQ_create`: empty heap, `current_size = 0`, `capacity = 10`; the ten
allocated slots are uninitialized, so the model list is empty. -/
def PQ_create : PQ_pq :=
  { current_size := 0, capacity := PQ_INITIAL_SIZE, heap := [] }

/-- C `_check_size`: if `current_size + 1 > capacity`, reallocate to
`capacity + PQ_INCREMENT_SIZE` slots (a realloc, so every initialized slot
keeps its value and index), assign `current_size = capacity` (the old
capacity), then `capacity = capacity + PQ_INCREMENT_SIZE`. -/
def _check_size (q : PQ_pq) : PQ_pq :=
  if q.current_size + 1 > q.capacity then
    { q with current_size := q.capacity, capacity := q.capacity + PQ_INCREMENT_SIZE }
  else q

/-- C `PQ_enqueue`: build the new node, run `_check_size`, write the node at
index `current_size`, sift it up from there, then increment `current_size`. -/
def PQ_enqueue (q : PQ_pq) (data prioity : Int) : PQ_pq :=
  let to_add : PQ_Node := { data := data, priority := prioity }
  let q1 := _check_size q
  let q2 : PQ_pq := { q1 with heap := writeAt q1.heap q1.current_size to_add }
  let q3 := _shift_up q2.current_size q2
  { q3 with current_size := q3.current_size + 1 }

/-- C `PQ_peek`: `return q->heap[0]->data`.  The source performs no write, so
peek is a pure read; on an empty backing array the read of slot 0 is
out of bounds (`none`). -/
def PQ_peek (q : PQ_pq) : Option Int :=
  (q.heap[0]?).map PQ_Node.data

/-- C `_PQ_dequeue`: take the root node, move the node at
`current_size - 1` (a C int expression, `-1` when the queue is empty) into
slot 0, decrement `current_size`, sift down from the root, and return the
removed node together with the new state. -/
def _PQ_dequeue (q : PQ_pq) : Option (PQ_Node × PQ_pq) :=
  match q.heap[0]?, getI q.heap ((q.current_size : Int) - 1) with
  | some n, some last =>
    some (n, _shift_down 0 { q with heap := q.heap.set 0 last, current_size := q.current_size - 1 })
  | _, _ => none

/-- C `PQ_dequeue`: `_PQ_dequeue`, then extract the payload and free the
node. -/
def PQ_dequeue (q : PQ_pq) : Option (Int × PQ_pq) :=
  match _PQ_dequeue q with
  | some p => some (p.1.data, p.2)
  | none => none

/-- The enqueue loop of C `PQ_heapify`: insert the given nodes in order. -/
def insertAll (arr : List PQ_Node) (q : PQ_pq) : PQ_pq :=
  arr.foldl (fun p a => PQ_enqueue p a.data a.priority) q

/-- C `PQ_heapify`: `PQ_create`, then overwrite `capacity` with `size` and
`heap` with a fresh (uninitialized, hence empty-model) array of `size`
slots, then enqueue the `size` input nodes in order. -/
def PQ_heapify (arr : List PQ_Node) : PQ_pq :=
  insertAll arr { PQ_create with capacity := arr.length, heap := [] }

/-- Repeatedly call C `PQ_dequeue`, collecting the returned payloads; stops
early if a dequeue fails with an out-of-bounds access. -/
def dequeueAll : Nat → PQ_pq → List Int
  | 0, _ => []
  | k + 1, q =>
    match PQ_dequeue q with
    | some p => p.1 :: dequeueAll k p.2
    | none => []

/-- The intermediate state built by C `_PQ_dequeue` before sifting down: the
node at index `current_size - 1` is copied into slot 0 and `current_size` is
decremented. -/
def dequeuedState (q : PQ_pq) : PQ_pq :=
  { q with heap := q.heap.set 0 (nth q.heap (q.current_size - 1)), current_size := q.current_size - 1 }

/-- Heap-order on the first `m` slots: every live non-root index is at least
its parent. -/
def HO (h : List PQ_Node) (m : Nat) : Prop :=
  ∀ j, 0 < j → j < m → prioL h ((j - 1) / 2) ≤ prioL h j

/-- Sift-up intermediate invariant: heap-order on the first `m` slots may be
broken only on the edge into `i`, and the children of `i` are bounded below
by the parent of `i`. -/
def AHup (h : List PQ_Node) (m i : Nat) : Prop :=
  (∀ j, 0 < j → j < m → j ≠ i → prioL h ((j - 1) / 2) ≤ prioL h j) ∧
  (∀ j, 0 < j → j < m → (j - 1) / 2 = i → 0 < i → prioL h ((i - 1) / 2) ≤ prioL h j)

/-- Sift-down intermediate invariant: heap-order on the first `m` slots may
be broken only on the edges out of `i`, and the children of `i` are bounded
below by the parent of `i`. -/
def AHdown (h : List PQ_Node) (m i : Nat) : Prop :=
  (∀ j, 0 < j → j < m → (j - 1) / 2 ≠ i → prioL h ((j - 1) / 2) ≤ prioL h j) ∧
  (∀ j, 0 < j → j < m → (j - 1) / 2 = i → 0 < i → prioL h ((i - 1) / 2) ≤ prioL h j)

/-- The live elements: slots `0 .. current_size - 1`. -/
def live (q : PQ_pq) : List PQ_Node := q.heap.take q.current_size

/-- State well-formedness: the live region is initialized, fits in the
allocation, and is heap-ordered. -/
def PQInv (q : PQ_pq) : Prop :=
  q.current_size ≤ q.heap.length ∧ q.current_size ≤ q.capacity ∧ HO q.heap q.current_size

/-- States obtainable from `PQ_create` by `PQ_enqueue` and by `PQ_dequeue`
performed only when `current_size > 0` (claim C1's reachable set). -/
inductive ReachableED : PQ_pq → Prop
  | create : ReachableED PQ_create
  | enqueue (q : PQ_pq) (d p : Int) : ReachableED q → ReachableED (PQ_enqueue q d p)
  | dequeue (q q' : PQ_pq) (nd : PQ_Node) : ReachableED q → 0 < q.current_size →
      _PQ_dequeue q = some (nd, q') → ReachableED q'

/-- States obtainable from `PQ_create` or `PQ_heapify` by `PQ_enqueue` and by
`PQ_dequeue` performed only when `current_size > 0` (claim C9's reachable
set). -/
inductive Reachable : PQ_pq → Prop
  | create : Reachable PQ_create
  | heapify (arr : List PQ_Node) : Reachable (PQ_heapify arr)
  | enqueue (q : PQ_pq) (d p : Int) : Reachable q → Reachable (PQ_enqueue q d p)
  | dequeue (q q' : PQ_pq) (nd : PQ_Node) : Reachable q → 0 < q.current_size →
      _PQ_dequeue q = some (nd, q') → Reachable q'

/-- The candidate indices examined by one sift-down step at `i`, in
examination order: `i` itself, then each child index passing the guard. -/
def candidates (q : PQ_pq) (i : Nat) : List Nat :=
  i :: List.filter (fun j => j ≤ q.current_size) [_left_child i, _right_child i]

/-- The claim's description of the selected index: the first candidate (in
examination order) holding the minimum priority, computed as a fold that
replaces the running choice only on a strictly smaller priority, so earlier
candidates win ties. -/
def smallestSpec (q : PQ_pq) (i : Nat) : Nat :=
  List.foldl (fun b j => if prioL q.heap j < prioL q.heap b then j else b) i
    (List.filter (fun j => j ≤ q.current_size) [_left_child i, _right_child i])

/-- Strict ordering of nodes by priority, used to state sorted extraction. -/
def prioLT (a b : PQ_Node) : Prop := a.priority < b.priority

/-- Pairwise-distinct priorities. -/
def distinctPrios (l : List PQ_Node) : Prop :=
  List.Pairwise (fun a b : PQ_Node => a.priority ≠ b.priority) l

/-- Priorities of `prioLT` are comparable by computation. -/
instance : DecidableRel prioLT :=
  fun a b => inferInstanceAs (Decidable (a.priority < b.priority))

/-- Distinctness of priorities is computable. -/
instance (l : List PQ_Node) : Decidable (distinctPrios l) :=
  inferInstanceAs (Decidable (List.Pairwise (fun a b : PQ_Node => a.priority ≠ b.priority) l))

/-- Thirty nodes with distinct priorities 1..30 (payload = 100 + priority),
in increasing priority order: the expected extraction order of the
growth-scenario heap (claim C8). -/
def es30 : List PQ_Node :=
  [⟨101, 1⟩, ⟨102, 2⟩, ⟨103, 3⟩, ⟨104, 4⟩, ⟨105, 5⟩, ⟨106, 6⟩, ⟨107, 7⟩, ⟨108, 8⟩,
   ⟨109, 9⟩, ⟨110, 10⟩, ⟨111, 11⟩, ⟨112, 12⟩, ⟨113, 13⟩, ⟨114, 14⟩, ⟨115, 15⟩,
   ⟨116, 16⟩, ⟨117, 17⟩, ⟨118, 18⟩, ⟨119, 19⟩, ⟨120, 20⟩, ⟨121, 21⟩, ⟨122, 22⟩,
   ⟨123, 23⟩, ⟨124, 24⟩, ⟨125, 25⟩, ⟨126, 26⟩, ⟨127, 27⟩, ⟨128, 28⟩, ⟨129, 29⟩,
   ⟨130, 30⟩]

/-- The insertion order of the growth scenario: the thirty nodes of `es30`
inserted in decreasing priority order into a fresh heap of capacity 10
(claim C8). -/
def sigma30 : List PQ_Node := es30.reverse

/-! ## Basic lemmas about the array model -/

theorem nth_eq_of_get?_eq {h h' : List PQ_Node} {i j : Nat} (e : h[i]? = h'[j]?) :
    nth h i = nth h' j := by
  simp only [nth, e]

theorem nth_set_self {h : List PQ_Node} {i : Nat} {x : PQ_Node} (hi : i < h.length) :
    nth (h.set i x) i = x := by
  simp [nth, List.getElem?_set, hi]

theorem nth_set_ne {h : List PQ_Node} {i j : Nat} {x : PQ_Node} (hij : i ≠ j) :
    nth (h.set i x) j = nth h j := by
  simp only [nth, List.getElem?_set_ne hij]

theorem length_swapL (h : List PQ_Node) (i j : Nat) :
    (swapL h i j).length = h.length := by
  simp [swapL]

theorem get?_swapL_other {h : List PQ_Node} {i j k : Nat} (hik : i ≠ k) (hjk : j ≠ k) :
    (swapL h i j)[k]? = h[k]? := by
  simp only [swapL, List.getElem?_set_ne hjk, List.getElem?_set_ne hik]

theorem nth_swapL_other {h : List PQ_Node} {i j k : Nat} (hik : i ≠ k) (hjk : j ≠ k) :
    nth (swapL h i j) k = nth h k :=
  nth_eq_of_get?_eq (get?_swapL_other hik hjk)

theorem nth_swapL_left {h : List PQ_Node} {i j : Nat} (hij : i ≠ j) (hi : i < h.length) :
    nth (swapL h i j) i = nth h j := by
  simp only [swapL]
  rw [nth_set_ne (Ne.symm hij), nth_set_self hi]

theorem nth_swapL_right {h : List PQ_Node} {i j : Nat} (hj : j < h.length) :
    nth (swapL h i j) j = nth h i := by
  simp only [swapL]
  rw [nth_set_self]
  simpa using hj

theorem cons_nth_set_perm : ∀ (t : List PQ_Node) (k : Nat) (a : PQ_Node), k < t.length →
    (nth t k :: t.set k a).Perm (a :: t) := by
  intro t
  induction t with
  | nil => intro k a hk; simp at hk
  | cons b t' ih =>
    intro k a hk
    cases k with
    | zero =>
      have hb : nth (b :: t') 0 = b := by simp [nth]
      rw [hb, List.set_cons_zero]
      exact List.Perm.swap a b t'
    | succ m =>
      have hm : m < t'.length := by simpa using hk
      have h1 : nth (b :: t') (m + 1) = nth t' m := by simp [nth]
      rw [h1, List.set_cons_succ]
      have s1 : (nth t' m :: b :: t'.set m a).Perm (b :: nth t' m :: t'.set m a) :=
        List.Perm.swap b (nth t' m) _
      have s2 : (b :: nth t' m :: t'.set m a).Perm (b :: a :: t') :=
        List.Perm.cons b (ih m a hm)
      have s3 : (b :: a :: t').Perm (a :: b :: t') := List.Perm.swap a b t'
      exact (s1.trans s2).trans s3

theorem swapL_perm : ∀ (h : List PQ_Node) (i j : Nat), i ≠ j → i < h.length → j < h.length →
    (swapL h i j).Perm h := by
  intro h
  induction h with
  | nil => intro i j _ hi _; simp at hi
  | cons a t ih =>
    intro i j hij hi hj
    match i, j with
    | 0, 0 => exact absurd rfl hij
    | 0, m + 1 =>
      have hm : m < t.length := by simpa using hj
      have e : swapL (a :: t) 0 (m + 1) = nth t m :: t.set m a := by
        simp only [swapL]
        have h1 : nth (a :: t) (m + 1) = nth t m := by simp [nth]
        have h2 : nth (a :: t) 0 = a := by simp [nth]
        rw [h1, h2, List.set_cons_zero, List.set_cons_succ]
      rw [e]
      exact cons_nth_set_perm t m a hm
    | n + 1, 0 =>
      have hn : n < t.length := by simpa using hi
      have e : swapL (a :: t) (n + 1) 0 = nth t n :: t.set n a := by
        simp only [swapL]
        have h1 : nth (a :: t) (n + 1) = nth t n := by simp [nth]
        have h2 : nth (a :: t) 0 = a := by simp [nth]
        rw [h1, h2, List.set_cons_succ, List.set_cons_zero]
      rw [e]
      exact cons_nth_set_perm t n a hn
    | n + 1, m + 1 =>
      have e : swapL (a :: t) (n + 1) (m + 1) = a :: swapL t n m := by
        simp only [swapL]
        have h1 : nth (a :: t) (m + 1) = nth t m := by simp [nth]
        have h2 : nth (a :: t) (n + 1) = nth t n := by simp [nth]
        rw [h1, h2, List.set_cons_succ, List.set_cons_succ]
      rw [e]
      exact List.Perm.cons a (ih n m (by omega) (by simpa using hi) (by simpa using hj))

theorem drop_eq_of_get?_eq {a b : List PQ_Node} {k : Nat} (hl : a.length = b.length)
    (he : ∀ j, k ≤ j → a[j]? = b[j]?) : a.drop k = b.drop k := by
  apply List.ext_getElem?
  intro j
  rw [List.getElem?_drop, List.getElem?_drop]
  exact he (k + j) (by omega)

theorem take_perm_of_perm_of_drop_eq {a b : List PQ_Node} {k : Nat}
    (hp : a.Perm b) (hd : a.drop k = b.drop k) : (a.take k).Perm (b.take k) := by
  have ha := List.take_append_drop k a
  have hb := List.take_append_drop k b
  have h1 : (a.take k ++ a.drop k).Perm (b.take k ++ a.drop k) := by
    rw [ha, hd, hb]; exact hp
  exact (List.perm_append_right_iff (a.drop k)).mp h1

/-! ## Step lemmas for the sift loops -/

theorem shift_up_step {i : Nat} {q : PQ_pq}
    (h1 : 0 < i) (h2 : prioL q.heap (_parent i) > prioL q.heap i) :
    _shift_up i q = _shift_up (_parent i) { q with heap := swapL q.heap (_parent i) i } := by
  rw [_shift_up]; exact dif_pos (And.intro h1 h2)

theorem shift_up_stop {i : Nat} {q : PQ_pq}
    (h : ¬(0 < i ∧ prioL q.heap (_parent i) > prioL q.heap i)) :
    _shift_up i q = q := by
  rw [_shift_up]; simp only [dif_neg h]

theorem shift_down_step {i : Nat} {q : PQ_pq} (h : i ≠ smallestIdx q i) :
    _shift_down i q = _shift_down (smallestIdx q i) { q with heap := swapL q.heap i (smallestIdx q i) } := by
  rw [_shift_down]; simp only [dif_pos h]

theorem shift_down_stop {i : Nat} {q : PQ_pq} (h : i = smallestIdx q i) :
    _shift_down i q = q := by
  rw [_shift_down]; exact dif_neg (fun hn => hn h)

theorem shift_down_strict_step {i : Nat} {q : PQ_pq} (h : i ≠ smallestIdxStrict q i) :
    _shift_down_strict i q
      = _shift_down_strict (smallestIdxStrict q i) { q with heap := swapL q.heap i (smallestIdxStrict q i) } := by
  rw [_shift_down_strict]; simp only [dif_pos h]

theorem shift_down_strict_stop {i : Nat} {q : PQ_pq} (h : i = smallestIdxStrict q i) :
    _shift_down_strict i q = q := by
  rw [_shift_down_strict]; exact dif_neg (fun hn => hn h)

/-! ## Characterization of the selected child index -/

theorem smallestIdx_choices (q : PQ_pq) (i : Nat) :
    smallestIdx q i = i ∨ smallestIdx q i = _left_child i ∨ smallestIdx q i = _right_child i := by
  unfold smallestIdx
  split_ifs <;> simp

theorem smallestIdx_ne (q : PQ_pq) (i : Nat) (h : smallestIdx q i ≠ i) :
    i < smallestIdx q i ∧ smallestIdx q i ≤ q.current_size ∧
      prioL q.heap (smallestIdx q i) < prioL q.heap i := by
  unfold smallestIdx at h ⊢
  simp only [_left_child, _right_child] at h ⊢
  split_ifs at h ⊢ with h1 h2 h2 <;>
    first
      | exact absurd rfl h
      | refine ⟨by omega, by omega, by linarith [h1.2, h2.2]⟩
      | refine ⟨by omega, h2.1, h2.2⟩
      | refine ⟨by omega, h1.1, h1.2⟩

theorem smallestIdx_le_i (q : PQ_pq) (i : Nat) :
    prioL q.heap (smallestIdx q i) ≤ prioL q.heap i := by
  unfold smallestIdx
  split_ifs with h1 h2 h2 <;> first | linarith [h1.2, h2.2] | linarith [h2.2] | linarith [h1.2] | exact le_refl _

theorem smallestIdx_le_l (q : PQ_pq) (i : Nat) (hl : _left_child i ≤ q.current_size) :
    prioL q.heap (smallestIdx q i) ≤ prioL q.heap (_left_child i) := by
  unfold smallestIdx
  split_ifs with h1 h2 h2 <;>
    first
      | linarith [h1.2, h2.2]
      | linarith [h2.2, (show ¬(_left_child i ≤ q.current_size ∧ prioL q.heap (_left_child i) < prioL q.heap i) from h1)]
      | exact le_refl _
      | linarith [h1.2]
      | simp only [not_and, not_lt] at h1; linarith [h1 hl]

theorem smallestIdx_le_r (q : PQ_pq) (i : Nat) (hr : _right_child i ≤ q.current_size) :
    prioL q.heap (smallestIdx q i) ≤ prioL q.heap (_right_child i) := by
  unfold smallestIdx
  split_ifs with h1 h2 h2 <;>
    first
      | exact le_refl _
      | (simp only [not_and, not_lt] at h2; linarith [h2 hr])

theorem smallestIdx_eq_i (q : PQ_pq) (i : Nat) (h : smallestIdx q i = i) :
    (_left_child i ≤ q.current_size → prioL q.heap i ≤ prioL q.heap (_left_child i)) ∧
    (_right_child i ≤ q.current_size → prioL q.heap i ≤ prioL q.heap (_right_child i)) := by
  constructor
  · intro hl
    have := smallestIdx_le_l q i hl
    rw [h] at this
    exact this
  · intro hr
    have := smallestIdx_le_r q i hr
    rw [h] at this
    exact this

/-! ## Frame lemmas for the sift loops -/

theorem shift_up_fields : ∀ (i : Nat) (q : PQ_pq),
    (_shift_up i q).current_size = q.current_size ∧
    (_shift_up i q).capacity = q.capacity ∧
    (_shift_up i q).heap.length = q.heap.length := by
  intro i q
  induction i, q using _shift_up.induct with
  | case1 i q h ih =>
    rw [shift_up_step h.1 h.2]
    simpa [length_swapL] using ih
  | case2 i q h =>
    rw [shift_up_stop h]
    exact ⟨rfl, rfl, rfl⟩

theorem shift_up_get?_high : ∀ (i : Nat) (q : PQ_pq) (j : Nat), i < j →
    ((_shift_up i q).heap)[j]? = q.heap[j]? := by
  intro i q
  induction i, q using _shift_up.induct with
  | case1 i q h ih =>
    intro j hj
    rw [shift_up_step h.1 h.2]
    have hp : _parent i < i := by simp only [_parent]; omega
    rw [ih j (by omega)]
    exact get?_swapL_other (by omega) (by omega)
  | case2 i q h =>
    intro j hj
    rw [shift_up_stop h]

theorem shift_up_perm : ∀ (i : Nat) (q : PQ_pq), i < q.heap.length →
    ((_shift_up i q).heap).Perm q.heap := by
  intro i q
  induction i, q using _shift_up.induct with
  | case1 i q h ih =>
    intro hi
    rw [shift_up_step h.1 h.2]
    have hp : _parent i < i := by simp only [_parent]; omega
    have h1 : (swapL q.heap (_parent i) i).Perm q.heap :=
      swapL_perm q.heap (_parent i) i (by omega) (by omega) hi
    have h2 := ih (by simpa [length_swapL] using lt_trans hp hi)
    exact h2.trans h1
  | case2 i q h =>
    intro hi
    rw [shift_up_stop h]

theorem shift_down_fields : ∀ (i : Nat) (q : PQ_pq),
    (_shift_down i q).current_size = q.current_size ∧
    (_shift_down i q).capacity = q.capacity ∧
    (_shift_down i q).heap.length = q.heap.length := by
  intro i q
  induction i, q using _shift_down.induct with
  | case1 i q h ih =>
    rw [shift_down_step h]
    simpa [length_swapL] using ih
  | case2 i q h =>
    rw [shift_down_stop (by omega)]
    exact ⟨rfl, rfl, rfl⟩

theorem shift_down_get?_high : ∀ (i : Nat) (q : PQ_pq) (j : Nat), q.current_size < j →
    ((_shift_down i q).heap)[j]? = q.heap[j]? := by
  intro i q
  induction i, q using _shift_down.induct with
  | case1 i q h ih =>
    intro j hj
    obtain ⟨hlt, hle, _⟩ := smallestIdx_ne q i (Ne.symm h)
    rw [shift_down_step h]
    rw [ih j hj]
    exact get?_swapL_other (by omega) (by omega)
  | case2 i q h =>
    intro j hj
    rw [shift_down_stop (by omega)]

theorem shift_down_perm : ∀ (i : Nat) (q : PQ_pq), q.current_size < q.heap.length →
    ((_shift_down i q).heap).Perm q.heap := by
  intro i q
  induction i, q using _shift_down.induct with
  | case1 i q h ih =>
    intro hq
    obtain ⟨hlt, hle, _⟩ := smallestIdx_ne q i (Ne.symm h)
    rw [shift_down_step h]
    have h1 : (swapL q.heap i (smallestIdx q i)).Perm q.heap :=
      swapL_perm q.heap i (smallestIdx q i) (by omega) (by omega) (by omega)
    have h2 := ih (by simpa [length_swapL] using hq)
    exact h2.trans h1
  | case2 i q h =>
    intro hq
    rw [shift_down_stop (by omega)]

/-! ## Heap-order restoration -/

theorem prioL_swapL_left {h : List PQ_Node} {i j : Nat} (hij : i ≠ j) (hi : i < h.length) :
    prioL (swapL h i j) i = prioL h j :=
  congrArg PQ_Node.priority (nth_swapL_left hij hi)

theorem prioL_swapL_right {h : List PQ_Node} {i j : Nat} (hj : j < h.length) :
    prioL (swapL h i j) j = prioL h i :=
  congrArg PQ_Node.priority (nth_swapL_right hj)

theorem prioL_swapL_other {h : List PQ_Node} {i j k : Nat} (hik : i ≠ k) (hjk : j ≠ k) :
    prioL (swapL h i j) k = prioL h k :=
  congrArg PQ_Node.priority (nth_swapL_other hik hjk)

theorem child_arith {j i : Nat} (hj : 0 < j) (h : (j - 1) / 2 = i) :
    j = 2 * i + 1 ∨ j = 2 * i + 2 := by omega

theorem shift_up_HO : ∀ (i : Nat) (q : PQ_pq) (m : Nat), i < m → m ≤ q.heap.length →
    AHup q.heap m i → HO (_shift_up i q).heap m := by
  intro i q
  induction i, q using _shift_up.induct with
  | case1 i q h ih =>
    intro m him hm hA
    obtain ⟨hi0, hgt⟩ := h
    set p := _parent i with hp_def
    have hpi : p < i := by simp only [hp_def, _parent]; omega
    have hp2 : p = (i - 1) / 2 := by simp only [hp_def, _parent]
    have hiL : i < q.heap.length := lt_of_lt_of_le him hm
    have hpL : p < q.heap.length := lt_trans hpi hiL
    rw [shift_up_step hi0 hgt]
    apply ih m (by omega) (by simpa [length_swapL] using hm)
    constructor
    · -- all heap edges except the one into p hold after the swap
      intro j hj0 hjm hjp
      by_cases hji : j = i
      · subst hji
        have e1 : (j - 1) / 2 = p := hp2.symm
        rw [e1, prioL_swapL_left (by omega) hpL, prioL_swapL_right hiL]
        exact le_of_lt hgt
      · by_cases hpj_i : (j - 1) / 2 = i
        · -- j is a child of i; its new parent value is the old value at p
          have e1 : prioL (swapL q.heap p i) ((j - 1) / 2) = prioL q.heap p := by
            rw [hpj_i, prioL_swapL_right hiL]
          have e2 : prioL (swapL q.heap p i) j = prioL q.heap j :=
            prioL_swapL_other (by omega) (by omega)
          rw [e1, e2, hp2]
          exact hA.2 j hj0 hjm hpj_i hi0
        · by_cases hpj_p : (j - 1) / 2 = p
          · -- j is the sibling of i (or i itself, excluded)
            have e1 : prioL (swapL q.heap p i) ((j - 1) / 2) = prioL q.heap i := by
              rw [hpj_p, prioL_swapL_left (by omega) hpL]
            have e2 : prioL (swapL q.heap p i) j = prioL q.heap j :=
              prioL_swapL_other (by omega) (by omega)
            rw [e1, e2]
            have h1 : prioL q.heap ((j - 1) / 2) ≤ prioL q.heap j := hA.1 j hj0 hjm hji
            rw [hpj_p] at h1
            exact le_trans (le_of_lt hgt) h1
          · have e1 : prioL (swapL q.heap p i) ((j - 1) / 2) = prioL q.heap ((j - 1) / 2) :=
              prioL_swapL_other (by omega) (by omega)
            have e2 : prioL (swapL q.heap p i) j = prioL q.heap j :=
              prioL_swapL_other (by omega) (by omega)
            rw [e1, e2]
            exact hA.1 j hj0 hjm hji
    · -- children of p are bounded below by the parent of p
      intro j hj0 hjm hpj hp0
      have hjp : p < j := by
        have := child_arith hj0 hpj; omega
      have hgp : (p - 1) / 2 < p := by omega
      have e0 : prioL (swapL q.heap p i) ((p - 1) / 2) = prioL q.heap ((p - 1) / 2) :=
        prioL_swapL_other (by omega) (by omega)
      have hpm : p < m := by omega
      have hRp : prioL q.heap ((p - 1) / 2) ≤ prioL q.heap p := by
        have := hA.1 p hp0 hpm (by omega)
        exact this
      by_cases hji : j = i
      · subst hji
        rw [e0, prioL_swapL_right hiL]
        exact hRp
      · have e2 : prioL (swapL q.heap p i) j = prioL q.heap j :=
          prioL_swapL_other (by omega) (by omega)
        rw [e0, e2]
        have hRj : prioL q.heap ((j - 1) / 2) ≤ prioL q.heap j := hA.1 j hj0 hjm hji
        rw [hpj] at hRj
        exact le_trans hRp hRj
  | case2 i q h =>
    intro m him hm hA
    rw [shift_up_stop h]
    intro j hj0 hjm
    by_cases hji : j = i
    · subst hji
      have : ¬ prioL q.heap (_parent j) > prioL q.heap j := fun hc => h ⟨hj0, hc⟩
      simpa [_parent] using le_of_not_lt this
    · exact hA.1 j hj0 hjm hji

theorem shift_down_HO : ∀ (i : Nat) (q : PQ_pq) (m : Nat), m = q.current_size + 1 →
    m ≤ q.heap.length → i < m → AHdown q.heap m i → HO (_shift_down i q).heap m := by
  intro i q
  induction i, q using _shift_down.induct with
  | case1 i q h ih =>
    intro m hmcs hm him hA
    set s := smallestIdx q i with hs_def
    obtain ⟨his, hscs, hps⟩ := smallestIdx_ne q i (Ne.symm h)
    have hsm : s < m := by omega
    have hsL : s < q.heap.length := by omega
    have hiL : i < q.heap.length := by omega
    have hchild : (s - 1) / 2 = i := by
      rcases smallestIdx_choices q i with hc | hc | hc
      · exact absurd hc.symm h
      · rw [← hs_def] at hc; simp only [hc, _left_child]; omega
      · rw [← hs_def] at hc; simp only [hc, _right_child]; omega
    rw [shift_down_step h]
    apply ih m (by simpa using hmcs) (by simpa [length_swapL] using hm) (by omega)
    constructor
    · -- all heap edges except those out of s hold after the swap
      intro j hj0 hjm hjs
      by_cases hji : j = i
      · subst hji
        have hj0' : 0 < j := hj0
        have e1 : prioL (swapL q.heap j s) ((j - 1) / 2) = prioL q.heap ((j - 1) / 2) :=
          prioL_swapL_other (by omega) (by omega)
        have e2 : prioL (swapL q.heap j s) j = prioL q.heap s :=
          prioL_swapL_left (by omega) hiL
        rw [e1, e2]
        have := hA.2 s (by omega) hsm hchild hj0'
        exact this
      · by_cases hjs' : j = s
        · have e1 : prioL (swapL q.heap i s) ((j - 1) / 2) = prioL q.heap s := by
            rw [hjs', hchild]
            exact prioL_swapL_left (by omega) hiL
          have e2 : prioL (swapL q.heap i s) j = prioL q.heap i := by
            rw [hjs']
            exact prioL_swapL_right hsL
          rw [e1, e2]
          exact le_of_lt hps
        · by_cases hpj_i : (j - 1) / 2 = i
          · -- j is the other child of i
            have e1 : prioL (swapL q.heap i s) ((j - 1) / 2) = prioL q.heap s := by
              rw [hpj_i]
              exact prioL_swapL_left (by omega) hiL
            have e2 : prioL (swapL q.heap i s) j = prioL q.heap j :=
              prioL_swapL_other (by omega) (by omega)
            rw [e1, e2]
            rcases child_arith hj0 hpj_i with hj | hj
            · have : j = _left_child i := by simp only [_left_child]; omega
              rw [this]
              exact smallestIdx_le_l q i (by simp only [_left_child]; omega)
            · have : j = _right_child i := by simp only [_right_child]; omega
              rw [this]
              exact smallestIdx_le_r q i (by simp only [_right_child]; omega)
          · have e1 : prioL (swapL q.heap i s) ((j - 1) / 2) = prioL q.heap ((j - 1) / 2) :=
              prioL_swapL_other (by omega) (by omega)
            have e2 : prioL (swapL q.heap i s) j = prioL q.heap j :=
              prioL_swapL_other (by omega) (by omega)
            rw [e1, e2]
            exact hA.1 j hj0 hjm hpj_i
    · -- children of s are bounded below by the parent of s, which now holds
      -- the old value at s
      intro j hj0 hjm hpj hs0
      have hjgt : s < j := by
        have := child_arith hj0 hpj; omega
      have e1 : prioL (swapL q.heap i s) ((s - 1) / 2) = prioL q.heap s := by
        rw [hchild]
        exact prioL_swapL_left (by omega) hiL
      have e2 : prioL (swapL q.heap i s) j = prioL q.heap j :=
        prioL_swapL_other (by omega) (by omega)
      rw [e1, e2]
      have := hA.1 j hj0 hjm (by omega)
      rw [hpj] at this
      exact this
  | case2 i q h =>
    intro m hmcs hm him hA
    have hsi : smallestIdx q i = i := by omega
    rw [shift_down_stop (by omega)]
    intro j hj0 hjm
    by_cases hpj : (j - 1) / 2 = i
    · rcases child_arith hj0 hpj with hj | hj
      · have hjl : j = _left_child i := by simp only [_left_child]; omega
        have := (smallestIdx_eq_i q i hsi).1 (by simp only [_left_child]; omega)
        rw [hpj, hjl]
        exact this
      · have hjr : j = _right_child i := by simp only [_right_child]; omega
        have := (smallestIdx_eq_i q i hsi).2 (by simp only [_right_child]; omega)
        rw [hpj, hjr]
        exact this
    · exact hA.1 j hj0 hjm hpj

/-! ## Equivalence of the lenient and strict child guards during dequeue -/

theorem smallestIdxStrict_ne (q : PQ_pq) (i : Nat) (h : smallestIdxStrict q i ≠ i) :
    i < smallestIdxStrict q i ∧ smallestIdxStrict q i < q.current_size ∧
      prioL q.heap (smallestIdxStrict q i) < prioL q.heap i := by
  unfold smallestIdxStrict at h ⊢
  simp only [_left_child, _right_child] at h ⊢
  split_ifs at h ⊢ with h1 h2 h2 <;>
    first
      | exact absurd rfl h
      | refine ⟨by omega, by omega, by linarith [h1.2, h2.2]⟩
      | refine ⟨by omega, h2.1, h2.2⟩
      | refine ⟨by omega, h1.1, h1.2⟩

theorem smallestIdx_eq_strict (q : PQ_pq) (i : Nat)
    (hinv : prioL q.heap i ≤ prioL q.heap q.current_size) :
    smallestIdx q i = smallestIdxStrict q i := by
  unfold smallestIdx smallestIdxStrict
  simp only [_left_child, _right_child]
  by_cases hl : 2 * i + 1 = q.current_size
  · have hnl : ¬(2 * i + 1 ≤ q.current_size ∧ prioL q.heap (2 * i + 1) < prioL q.heap i) := by
      rintro ⟨h1, h2⟩
      rw [hl] at h2
      linarith
    have hnl' : ¬(2 * i + 1 < q.current_size ∧ prioL q.heap (2 * i + 1) < prioL q.heap i) := by
      rintro ⟨h1, _⟩; omega
    rw [if_neg hnl, if_neg hnl']
    have hnr : ¬(2 * i + 2 ≤ q.current_size ∧ prioL q.heap (2 * i + 2) < prioL q.heap i) := by
      rintro ⟨h1, _⟩; omega
    have hnr' : ¬(2 * i + 2 < q.current_size ∧ prioL q.heap (2 * i + 2) < prioL q.heap i) := by
      rintro ⟨h1, _⟩; omega
    rw [if_neg hnr, if_neg hnr']
  · have hinner : (if 2 * i + 1 ≤ q.current_size ∧ prioL q.heap (2 * i + 1) < prioL q.heap i
          then 2 * i + 1 else i)
        = (if 2 * i + 1 < q.current_size ∧ prioL q.heap (2 * i + 1) < prioL q.heap i
          then 2 * i + 1 else i) := by
      by_cases hP : prioL q.heap (2 * i + 1) < prioL q.heap i
      · by_cases hle : 2 * i + 1 ≤ q.current_size
        · rw [if_pos (And.intro hle hP), if_pos (And.intro (by omega) hP)]
        · rw [if_neg (fun hc => hle hc.1), if_neg (fun hc => hle (le_of_lt hc.1))]
      · rw [if_neg (fun hc => hP hc.2), if_neg (fun hc => hP hc.2)]
    rw [hinner]
    set m1 := if 2 * i + 1 < q.current_size ∧ prioL q.heap (2 * i + 1) < prioL q.heap i
      then 2 * i + 1 else i with hm1
    have hm1i : prioL q.heap m1 ≤ prioL q.heap i := by
      rw [hm1]
      split_ifs with hc
      · exact le_of_lt hc.2
      · exact le_refl _
    by_cases hr : 2 * i + 2 = q.current_size
    · have hnr : ¬(2 * i + 2 ≤ q.current_size ∧ prioL q.heap (2 * i + 2) < prioL q.heap m1) := by
        rintro ⟨_, h2⟩
        rw [hr] at h2
        linarith
      have hnr' : ¬(2 * i + 2 < q.current_size ∧ prioL q.heap (2 * i + 2) < prioL q.heap m1) := by
        rintro ⟨h1, _⟩; omega
      rw [if_neg hnr, if_neg hnr']
    · by_cases hQ : prioL q.heap (2 * i + 2) < prioL q.heap m1
      · by_cases hle : 2 * i + 2 ≤ q.current_size
        · rw [if_pos (And.intro hle hQ), if_pos (And.intro (by omega) hQ)]
        · rw [if_neg (fun hc => hle hc.1), if_neg (fun hc => hle (le_of_lt hc.1))]
      · rw [if_neg (fun hc => hQ hc.2), if_neg (fun hc => hQ hc.2)]

theorem shift_down_eq_strict : ∀ (i : Nat) (q : PQ_pq), q.current_size < q.heap.length →
    prioL q.heap i ≤ prioL q.heap q.current_size →
    _shift_down i q = _shift_down_strict i q := by
  intro i q
  induction i, q using _shift_down.induct with
  | case1 i q h ih =>
    intro hlen hinv
    have hseq := smallestIdx_eq_strict q i hinv
    obtain ⟨his, hscs, hps⟩ := smallestIdx_ne q i (Ne.symm h)
    have hscs' : smallestIdx q i < q.current_size := by
      rcases lt_or_eq_of_le hscs with hc | hc
      · exact hc
      · rw [hc] at hps; linarith
    have hsL : smallestIdx q i < q.heap.length := by omega
    rw [shift_down_step h, shift_down_strict_step (by rw [← hseq]; exact h), ← hseq]
    apply ih
    · simpa [length_swapL] using hlen
    · have e1 : prioL (swapL q.heap i (smallestIdx q i)) (smallestIdx q i) = prioL q.heap i :=
        prioL_swapL_right hsL
      have e2 : prioL (swapL q.heap i (smallestIdx q i)) q.current_size
          = prioL q.heap q.current_size :=
        prioL_swapL_other (by omega) (by omega)
      simpa [e1, e2] using hinv
  | case2 i q h =>
    intro hlen hinv
    have hsi : smallestIdx q i = i := by omega
    have hsi' : smallestIdxStrict q i = i := by
      rw [← smallestIdx_eq_strict q i hinv]; exact hsi
    rw [shift_down_stop hsi.symm, shift_down_strict_stop hsi'.symm]

theorem shift_down_strict_get?_geq : ∀ (i : Nat) (q : PQ_pq) (j : Nat), q.current_size ≤ j →
    ((_shift_down_strict i q).heap)[j]? = q.heap[j]? := by
  intro i q
  induction i, q using _shift_down_strict.induct with
  | case1 i q h ih =>
    intro j hj
    obtain ⟨hlt, hle, _⟩ := smallestIdxStrict_ne q i (Ne.symm h)
    rw [shift_down_strict_step h, ih j hj]
    exact get?_swapL_other (by omega) (by omega)
  | case2 i q h =>
    intro j hj
    rw [shift_down_strict_stop (by omega)]

theorem shift_down_get?_geq_of_inv (i : Nat) (q : PQ_pq) (hlen : q.current_size < q.heap.length)
    (hinv : prioL q.heap i ≤ prioL q.heap q.current_size) :
    ∀ j, q.current_size ≤ j → ((_shift_down i q).heap)[j]? = q.heap[j]? := by
  intro j hj
  rw [shift_down_eq_strict i q hlen hinv]
  exact shift_down_strict_get?_geq i q j hj

/-! ## Heap order utilities -/

theorem HO_mono {h : List PQ_Node} {m m' : Nat} (hm : m' ≤ m) (hHO : HO h m) : HO h m' :=
  fun j h1 h2 => hHO j h1 (lt_of_lt_of_le h2 hm)

theorem HO_root_min {h : List PQ_Node} {m : Nat} (hHO : HO h m) :
    ∀ j, j < m → prioL h 0 ≤ prioL h j := by
  intro j
  induction j using Nat.strong_induction_on with
  | _ j ih =>
    intro hj
    rcases Nat.eq_zero_or_pos j with hj0 | hj0
    · subst hj0; exact le_refl _
    · have hp : (j - 1) / 2 < j := by omega
      exact le_trans (ih ((j - 1) / 2) hp (by omega)) (hHO j hj0 hj)

/-! ## writeAt lemmas -/

theorem writeAt_length_ge {h : List PQ_Node} {i : Nat} {x : PQ_Node} (hi : i ≤ h.length) :
    i + 1 ≤ (writeAt h i x).length := by
  unfold writeAt
  split_ifs with hc
  · simpa using hc
  · simp; omega

theorem writeAt_get?_lt {h : List PQ_Node} {i j : Nat} {x : PQ_Node} (hj : j < i)
    (hi : i ≤ h.length) : (writeAt h i x)[j]? = h[j]? := by
  unfold writeAt
  split_ifs with hc
  · exact List.getElem?_set_ne (by omega)
  · exact List.getElem?_append_left (by omega)

theorem take_writeAt {h : List PQ_Node} {i : Nat} {x : PQ_Node} (hi : i ≤ h.length) :
    (writeAt h i x).take (i + 1) = h.take i ++ [x] := by
  unfold writeAt
  split_ifs with hc
  · rw [List.set_eq_take_append_cons_drop, if_pos hc]
    rw [List.take_append_eq_append_take]
    have h1 : (h.take i).length = i := by simp; omega
    rw [h1]
    have h2 : (h.take i).take (i + 1) = h.take i := by
      rw [List.take_take]
      congr 1
      omega
    rw [h2]
    have h3 : i + 1 - i = 1 := by omega
    rw [h3]
    simp
  · have hc' : i = h.length := by omega
    subst hc'
    rw [List.take_append_eq_append_take]
    simp

/-! ## _check_size lemmas -/

theorem check_size_no_grow {q : PQ_pq} (h : q.current_size + 1 ≤ q.capacity) :
    _check_size q = q := by
  unfold _check_size
  rw [if_neg (by omega)]

theorem check_size_spec {q : PQ_pq} (hwf : q.current_size ≤ q.capacity) :
    (_check_size q).current_size = q.current_size ∧ (_check_size q).heap = q.heap ∧
    q.current_size + 1 ≤ (_check_size q).capacity ∧ q.capacity ≤ (_check_size q).capacity := by
  unfold _check_size
  split_ifs with hc
  · refine ⟨by simp; omega, rfl, ?_, ?_⟩ <;> (simp [PQ_INCREMENT_SIZE]; try omega)
  · refine ⟨rfl, rfl, by omega, le_refl _⟩

/-! ## Enqueue specification -/

theorem PQ_enqueue_spec (q : PQ_pq) (d p : Int) (hq : PQInv q) :
    PQInv (PQ_enqueue q d p) ∧
    (PQ_enqueue q d p).current_size = q.current_size + 1 ∧
    q.capacity ≤ (PQ_enqueue q d p).capacity ∧
    (live (PQ_enqueue q d p)).Perm ({ data := d, priority := p } :: live q) ∧
    (q.current_size + 1 ≤ q.capacity → (PQ_enqueue q d p).capacity = q.capacity) := by
  obtain ⟨hlen, hcap, hHO⟩ := hq
  obtain ⟨e_cs, e_heap, e_cap1, e_cap2⟩ := check_size_spec hcap
  set x : PQ_Node := { data := d, priority := p } with hx
  set q1 := _check_size q with hq1
  set q2 : PQ_pq := { q1 with heap := writeAt q1.heap q1.current_size x } with hq2
  set q3 := _shift_up q2.current_size q2 with hq3
  have hdef : PQ_enqueue q d p = { q3 with current_size := q3.current_size + 1 } := rfl
  have h2cs : q2.current_size = q.current_size := e_cs
  have h2heap : q2.heap = writeAt q.heap q.current_size x := by
    show writeAt q1.heap q1.current_size x = _
    rw [e_heap, e_cs]
  have h2cap : q.current_size + 1 ≤ q2.capacity := e_cap1
  have h2cap' : q.capacity ≤ q2.capacity := e_cap2
  have hlen2 : q.current_size + 1 ≤ q2.heap.length := by
    rw [h2heap]; exact writeAt_length_ge hlen
  have h3fields := shift_up_fields q2.current_size q2
  have h3cs : q3.current_size = q.current_size := by rw [← hq3] at h3fields; rw [h3fields.1, h2cs]
  have h3cap : q3.capacity = q2.capacity := by rw [← hq3] at h3fields; exact h3fields.2.1
  have h3len : q3.heap.length = q2.heap.length := by rw [← hq3] at h3fields; exact h3fields.2.2
  have hAH : AHup q2.heap (q.current_size + 1) q2.current_size := by
    rw [h2cs]
    constructor
    · intro j hj0 hjm hjne
      have hjlt : j < q.current_size := by omega
      have e1 : prioL q2.heap j = prioL q.heap j := by
        rw [h2heap]
        exact congrArg PQ_Node.priority (nth_eq_of_get?_eq (writeAt_get?_lt hjlt hlen))
      have e2 : prioL q2.heap ((j - 1) / 2) = prioL q.heap ((j - 1) / 2) := by
        rw [h2heap]
        exact congrArg PQ_Node.priority (nth_eq_of_get?_eq (writeAt_get?_lt (by omega) hlen))
      rw [e1, e2]
      exact hHO j hj0 hjlt
    · intro j hj0 hjm hpj _
      have := child_arith hj0 hpj
      omega
  have hHO3 : HO q3.heap (q.current_size + 1) := by
    rw [hq3]
    exact shift_up_HO q2.current_size q2 (q.current_size + 1) (by omega) (by omega) hAH
  have hperm3 : q3.heap.Perm q2.heap := by
    rw [hq3]
    exact shift_up_perm q2.current_size q2 (by omega)
  have hdrop3 : q3.heap.drop (q.current_size + 1) = q2.heap.drop (q.current_size + 1) := by
    apply drop_eq_of_get?_eq h3len
    intro j hj
    rw [hq3]
    exact shift_up_get?_high q2.current_size q2 j (by omega)
  have htake3 : (q3.heap.take (q.current_size + 1)).Perm (q2.heap.take (q.current_size + 1)) :=
    take_perm_of_perm_of_drop_eq hperm3 hdrop3
  have htake2 : q2.heap.take (q.current_size + 1) = q.heap.take q.current_size ++ [x] := by
    rw [h2heap]
    exact take_writeAt hlen
  refine ⟨⟨?_, ?_, ?_⟩, ?_, ?_, ?_, ?_⟩
  · rw [hdef]; show q3.current_size + 1 ≤ q3.heap.length
    omega
  · rw [hdef]; show q3.current_size + 1 ≤ q3.capacity
    omega
  · rw [hdef]; show HO q3.heap (q3.current_size + 1)
    rw [h3cs]
    exact hHO3
  · rw [hdef]; show q3.current_size + 1 = q.current_size + 1
    omega
  · rw [hdef]; show q.capacity ≤ q3.capacity
    omega
  · rw [hdef]
    show (q3.heap.take (q3.current_size + 1)).Perm (x :: live q)
    rw [h3cs]
    apply htake3.trans
    rw [htake2]
    exact List.perm_append_singleton x (q.heap.take q.current_size)
  · intro hcc
    rw [hdef]
    show q3.capacity = q.capacity
    rw [h3cap]
    show q1.capacity = q.capacity
    rw [hq1, check_size_no_grow hcc]

/-! ## Dequeue specification -/

theorem take_set (l : List PQ_Node) (i n : Nat) (a : PQ_Node) :
    (l.set i a).take n = (l.take n).set i a := by
  apply List.ext_getElem?
  intro j
  by_cases hj : j < n
  · rw [List.getElem?_take_of_lt hj]
    by_cases hij : i = j
    · subst hij
      by_cases hi : i < l.length
      · rw [List.getElem?_set, if_pos rfl, if_pos hi, List.getElem?_set, if_pos rfl,
          if_pos (by simp; omega)]
      · rw [List.getElem?_set, if_pos rfl, if_neg hi, List.getElem?_set, if_pos rfl,
          if_neg (by simp; omega)]
    · rw [List.getElem?_set_ne hij, List.getElem?_set_ne hij, List.getElem?_take_of_lt hj]
  · have h1 : ((l.set i a).take n).length ≤ j := by simp; omega
    have h2 : ((l.take n).set i a).length ≤ j := by simp; omega
    rw [List.getElem?_eq_none h1, List.getElem?_eq_none h2]

theorem live_min (q : PQ_pq) (hq : PQInv q) :
    ∀ x ∈ live q, prioL q.heap 0 ≤ x.priority := by
  intro x hx
  obtain ⟨j, hj, hval⟩ := List.getElem_of_mem hx
  have hjcs : j < q.current_size := by
    have := hj
    simp only [live, List.length_take] at this
    omega
  have hx' : x = nth q.heap j := by
    rw [← hval]
    have : (live q)[j]? = q.heap[j]? := by
      simp only [live]
      exact List.getElem?_take_of_lt hjcs
    simp only [nth, ← this, List.getElem?_eq_getElem hj]
    rfl
  rw [hx']
  exact HO_root_min hq.2.2 j hjcs

theorem PQ_dequeue_spec (q : PQ_pq) (hq : PQInv q) (hpos : 0 < q.current_size) :
    PQ_dequeue q = some ((nth q.heap 0).data, _shift_down 0 (dequeuedState q)) ∧
    PQInv (_shift_down 0 (dequeuedState q)) ∧
    (_shift_down 0 (dequeuedState q)).current_size = q.current_size - 1 ∧
    (_shift_down 0 (dequeuedState q)).capacity = q.capacity ∧
    (nth q.heap 0 :: live (_shift_down 0 (dequeuedState q))).Perm (live q) := by
  obtain ⟨hlen, hcap, hHO⟩ := hq
  set n := q.current_size - 1 with hn
  set root := nth q.heap 0 with hroot
  set last := nth q.heap n with hlast
  have hcs : q.current_size = n + 1 := by omega
  have h0l : 0 < q.heap.length := by omega
  have h0 : q.heap[0]? = some root := by
    rw [hroot]
    simp [nth, List.getElem?_eq_getElem h0l]
  have hnl : n < q.heap.length := by omega
  have hlast' : q.heap[n]? = some last := by
    rw [hlast]
    simp [nth, List.getElem?_eq_getElem hnl]
  have hgetI : getI q.heap ((q.current_size : Int) - 1) = some last := by
    unfold getI
    rw [if_neg (by omega)]
    have he : ((q.current_size : Int) - 1).toNat = n := by omega
    rw [he]
    exact hlast'
  set q1 : PQ_pq := dequeuedState q with hq1
  have hdeq : PQ_dequeue q = some (root.data, _shift_down 0 q1) := by
    unfold PQ_dequeue _PQ_dequeue
    rw [h0, hgetI]
    rfl
  have h1len : q1.heap.length = q.heap.length := by simp [hq1, dequeuedState]
  have h1cs : q1.current_size = n := rfl
  have h1lt : q1.current_size < q1.heap.length := by rw [h1cs, h1len]; omega
  have e0 : nth q1.heap 0 = last := by
    show nth (q.heap.set 0 last) 0 = last
    exact nth_set_self (by omega)
  have en' : q1.heap[n]? = some last := by
    show (q.heap.set 0 last)[n]? = some last
    rcases Nat.eq_zero_or_pos n with h | h
    · rw [h, List.getElem?_set, if_pos rfl, if_pos (by omega)]
    · rw [List.getElem?_set_ne (by omega)]
      exact hlast'
  have hinv0 : prioL q1.heap 0 ≤ prioL q1.heap q1.current_size := by
    rw [h1cs]
    have en : nth q1.heap n = last := by
      simp only [nth, en']
      rfl
    simp only [prioL, e0, en]
    exact le_refl _
  have h2fields := shift_down_fields 0 q1
  have h2cs : (_shift_down 0 q1).current_size = n := by rw [h2fields.1, h1cs]
  have h2cap : (_shift_down 0 q1).capacity = q.capacity := h2fields.2.1
  have h2len : (_shift_down 0 q1).heap.length = q.heap.length := by rw [h2fields.2.2, h1len]
  have hAH : AHdown q1.heap (n + 1) 0 := by
    constructor
    · intro j hj0 hjm hpj
      have e1 : prioL q1.heap j = prioL q.heap j := by
        show prioL (q.heap.set 0 last) j = prioL q.heap j
        exact congrArg PQ_Node.priority (nth_set_ne (by omega))
      have e2 : prioL q1.heap ((j - 1) / 2) = prioL q.heap ((j - 1) / 2) := by
        show prioL (q.heap.set 0 last) ((j - 1) / 2) = prioL q.heap ((j - 1) / 2)
        exact congrArg PQ_Node.priority (nth_set_ne (by omega))
      rw [e1, e2]
      exact hHO j hj0 (by omega)
    · intro j hj0 hjm hpj h0'
      omega
  have hHO2 : HO (_shift_down 0 q1).heap n := by
    apply HO_mono (Nat.le_succ n)
    exact shift_down_HO 0 q1 (n + 1) (by rw [h1cs]) (by rw [h1len]; omega) (by omega) hAH
  have hperm2 : ((_shift_down 0 q1).heap).Perm q1.heap := shift_down_perm 0 q1 h1lt
  have hdrop2 : (_shift_down 0 q1).heap.drop (n + 1) = q1.heap.drop (n + 1) := by
    apply drop_eq_of_get?_eq h2fields.2.2
    intro j hj
    exact shift_down_get?_high 0 q1 j (by omega)
  have huntouch : (_shift_down 0 q1).heap[n]? = some last := by
    rw [shift_down_get?_geq_of_inv 0 q1 h1lt hinv0 n (by rw [h1cs])]
    exact en'
  have htake2 : (_shift_down 0 q1).heap.take (n + 1) = (_shift_down 0 q1).heap.take n ++ [last] := by
    rw [List.take_succ, huntouch]
    rfl
  have htake1 : q1.heap.take (n + 1) = q1.heap.take n ++ [last] := by
    rw [List.take_succ, en']
    rfl
  have htkperm : ((_shift_down 0 q1).heap.take (n + 1)).Perm (q1.heap.take (n + 1)) :=
    take_perm_of_perm_of_drop_eq hperm2 hdrop2
  have hcancel : ((_shift_down 0 q1).heap.take n).Perm (q1.heap.take n) := by
    rw [htake2, htake1] at htkperm
    exact (List.perm_append_right_iff [last]).mp htkperm
  have hq1take : q1.heap.take n = (q.heap.take n).set 0 last := by
    show (q.heap.set 0 last).take n = _
    exact take_set q.heap 0 n last
  have hfinal : (root :: (_shift_down 0 q1).heap.take n).Perm (live q) := by
    have hlive : live q = q.heap.take (n + 1) := by
      simp only [live, hcs]
    rw [hlive]
    rcases Nat.eq_zero_or_pos n with h | h
    · rw [h]
      simp only [List.take_zero]
      have h1 : q.heap.take (0 + 1) = [root] := by
        rw [List.take_succ, h0]
        rfl
      rw [h1]
    · have hTlen : 0 < (q.heap.take n).length := by simp; omega
      obtain ⟨t0, ts, hT⟩ : ∃ t0 ts, q.heap.take n = t0 :: ts := by
        cases hval : q.heap.take n with
        | nil => rw [hval] at hTlen; simp at hTlen
        | cons a b => exact ⟨a, b, rfl⟩
      have ht0 : t0 = root := by
        have hh : (q.heap.take n)[0]? = q.heap[0]? := List.getElem?_take_of_lt h
        rw [hT, h0] at hh
        simpa using hh
      have hrw : q.heap.take (n + 1) = q.heap.take n ++ [last] := by
        rw [List.take_succ, hlast']
        rfl
      rw [hrw, hT, ht0]
      have hsd : ((_shift_down 0 q1).heap.take n).Perm (last :: ts) := by
        apply hcancel.trans
        rw [hq1take, hT, List.set_cons_zero]
      have s1 : (root :: (_shift_down 0 q1).heap.take n).Perm (root :: last :: ts) :=
        List.Perm.cons root hsd
      have s2 : (root :: last :: ts).Perm (root :: (ts ++ [last])) :=
        List.Perm.cons root (List.perm_append_singleton last ts).symm
      have s3 : root :: (ts ++ [last]) = (root :: ts) ++ [last] := rfl
      rw [← s3]
      exact s1.trans s2
  refine ⟨hdeq, ⟨?_, ?_, ?_⟩, h2cs, h2cap, ?_⟩
  · rw [h2cs, h2len]; omega
  · rw [h2cs, h2cap]; omega
  · rw [h2cs]; exact hHO2
  · show (root :: live (_shift_down 0 q1)).Perm (live q)
    have : live (_shift_down 0 q1) = (_shift_down 0 q1).heap.take n := by
      simp only [live, h2cs]
    rw [this]
    exact hfinal

/-! ## Bulk insertion -/

theorem insertAll_spec : ∀ (arr : List PQ_Node) (q : PQ_pq), PQInv q →
    PQInv (insertAll arr q) ∧
    (insertAll arr q).current_size = q.current_size + arr.length ∧
    q.capacity ≤ (insertAll arr q).capacity ∧
    (live (insertAll arr q)).Perm (arr ++ live q) ∧
    (q.current_size + arr.length ≤ q.capacity → (insertAll arr q).capacity = q.capacity) := by
  intro arr
  induction arr with
  | nil =>
    intro q hq
    refine ⟨hq, by simp [insertAll], le_refl _, by simp [insertAll], fun _ => rfl⟩
  | cons a t ih =>
    intro q hq
    obtain ⟨hInv1, hcs1, hcap1, hlive1, hcapeq1⟩ := PQ_enqueue_spec q a.data a.priority hq
    have hfold : insertAll (a :: t) q = insertAll t (PQ_enqueue q a.data a.priority) := rfl
    obtain ⟨hInv2, hcs2, hcap2, hlive2, hcapeq2⟩ := ih (PQ_enqueue q a.data a.priority) hInv1
    rw [hfold]
    refine ⟨hInv2, ?_, le_trans hcap1 hcap2, ?_, ?_⟩
    · rw [hcs2, hcs1]
      simp
      omega
    · have hstep : (t ++ live (PQ_enqueue q a.data a.priority)).Perm (t ++ (a :: live q)) :=
        List.Perm.append_left t (by simpa using hlive1)
      have hmid : (t ++ (a :: live q)).Perm (a :: (t ++ live q)) := List.perm_middle
      have : ((a :: t) ++ live q) = a :: (t ++ live q) := rfl
      rw [this]
      exact (hlive2.trans hstep).trans hmid
    · intro hle
      simp only [List.length_cons] at hle
      have hcc : q.current_size + 1 ≤ q.capacity := by omega
      have he := hcapeq1 hcc
      have := hcapeq2 (by rw [hcs1, he]; omega)
      rw [this, he]

/-! ## Reachability implies the invariant -/

theorem PQInv_create : PQInv PQ_create := by
  refine ⟨by simp [PQ_create], by simp [PQ_create, PQ_INITIAL_SIZE], ?_⟩
  intro j hj0 hjm
  simp [PQ_create] at hjm

theorem PQInv_heapify (arr : List PQ_Node) : PQInv (PQ_heapify arr) := by
  have hbase : PQInv { PQ_create with capacity := arr.length, heap := [] } := by
    refine ⟨by simp [PQ_create], by simp [PQ_create], ?_⟩
    intro j hj0 hjm
    simp [PQ_create] at hjm
  exact (insertAll_spec arr _ hbase).1

theorem dequeue_state_eq {q q' : PQ_pq} {nd : PQ_Node} (hq : PQInv q) (hpos : 0 < q.current_size)
    (hdq : _PQ_dequeue q = some (nd, q')) :
    nd = nth q.heap 0 ∧ q' = _shift_down 0 (dequeuedState q) := by
  have h1 := (PQ_dequeue_spec q hq hpos).1
  have h2 : PQ_dequeue q = some (nd.data, q') := by
    unfold PQ_dequeue
    rw [hdq]
  rw [h1] at h2
  simp only [Option.some.injEq, Prod.mk.injEq] at h2
  have h3 : nd = nth q.heap 0 := by
    have h0l : 0 < q.heap.length := by
      obtain ⟨hlen, -, -⟩ := hq
      omega
    have h0 : q.heap[0]? = some (nth q.heap 0) := by
      simp [nth, List.getElem?_eq_getElem h0l]
    unfold _PQ_dequeue at hdq
    rw [h0] at hdq
    rcases hgi : getI q.heap ((q.current_size : Int) - 1) with _ | last
    · rw [hgi] at hdq; simp at hdq
    · rw [hgi] at hdq
      simp only [Option.some.injEq, Prod.mk.injEq] at hdq
      exact hdq.1.symm
  exact ⟨h3, h2.2.symm⟩

theorem reachableED_inv : ∀ q, ReachableED q → PQInv q := by
  intro q h
  induction h with
  | create => exact PQInv_create
  | enqueue q d p _ ih => exact (PQ_enqueue_spec q d p ih).1
  | dequeue q q' nd _ hpos hdq ih =>
    obtain ⟨-, hq'⟩ := dequeue_state_eq ih hpos hdq
    rw [hq']
    exact (PQ_dequeue_spec q ih hpos).2.1

theorem reachable_inv : ∀ q, Reachable q → PQInv q := by
  intro q h
  induction h with
  | create => exact PQInv_create
  | heapify arr => exact PQInv_heapify arr
  | enqueue q d p _ ih => exact (PQ_enqueue_spec q d p ih).1
  | dequeue q q' nd _ hpos hdq ih =>
    obtain ⟨-, hq'⟩ := dequeue_state_eq ih hpos hdq
    rw [hq']
    exact (PQ_dequeue_spec q ih hpos).2.1

/-! ## Sorted extraction -/

theorem dequeueAll_sorted : ∀ (es : List PQ_Node) (q : PQ_pq), PQInv q →
    q.current_size = es.length → (live q).Perm es → List.Pairwise prioLT es →
    dequeueAll es.length q = es.map PQ_Node.data := by
  intro es
  induction es with
  | nil => intro q _ _ _ _; rfl
  | cons e es' ih =>
    intro q hq hcs hperm hsort
    have hpos : 0 < q.current_size := by rw [hcs]; simp
    obtain ⟨hdeq, hInv', hcs', hcap', hperm'⟩ := PQ_dequeue_spec q hq hpos
    have hrootmem : nth q.heap 0 ∈ live q :=
      hperm'.mem_iff.mp (List.mem_cons_self _ _)
    have hroot_le : ∀ x ∈ (e :: es'), (nth q.heap 0).priority ≤ x.priority := by
      intro x hx
      have hx' : x ∈ live q := hperm.mem_iff.mpr hx
      have := live_min q hq x hx'
      simpa [prioL] using this
    have hroote : nth q.heap 0 = e := by
      have hmem : nth q.heap 0 ∈ e :: es' := hperm.mem_iff.mp hrootmem
      rcases List.mem_cons.mp hmem with h | h
      · exact h
      · have h1 : e.priority < (nth q.heap 0).priority :=
          List.rel_of_pairwise_cons hsort h
        have h2 : (nth q.heap 0).priority ≤ e.priority :=
          hroot_le e (List.mem_cons_self e es')
        exact absurd h1 (not_lt.mpr h2)
    have hperm2 : (live (_shift_down 0 (dequeuedState q))).Perm es' := by
      have h1 : (nth q.heap 0 :: live (_shift_down 0 (dequeuedState q))).Perm (e :: es') :=
        hperm'.trans hperm
      rw [hroote] at h1
      exact h1.cons_inv
    have hlen' : (_shift_down 0 (dequeuedState q)).current_size = es'.length := by
      rw [hcs', hcs]
      simp
    have hsort' : List.Pairwise prioLT es' := List.Pairwise.of_cons hsort
    have hrec := ih (_shift_down 0 (dequeuedState q)) hInv' hlen' hperm2 hsort'
    show dequeueAll (es'.length + 1) q = e.data :: es'.map PQ_Node.data
    rw [dequeueAll, hdeq]
    simp only []
    rw [hroote, hrec]

/-! ## A sorted enumeration of distinct-priority nodes -/

theorem exists_sorted_perm (arr : List PQ_Node) (hd : distinctPrios arr) :
    ∃ es, arr.Perm es ∧ List.Pairwise prioLT es := by
  haveI : IsTotal PQ_Node (fun a b : PQ_Node => a.priority ≤ b.priority) :=
    ⟨fun a b => le_total _ _⟩
  haveI : IsTrans PQ_Node (fun a b : PQ_Node => a.priority ≤ b.priority) :=
    ⟨fun a b c => le_trans⟩
  refine ⟨List.insertionSort (fun a b : PQ_Node => a.priority ≤ b.priority) arr,
    (List.perm_insertionSort _ arr).symm, ?_⟩
  have hsorted : List.Pairwise (fun a b : PQ_Node => a.priority ≤ b.priority)
      (List.insertionSort (fun a b : PQ_Node => a.priority ≤ b.priority) arr) :=
    List.sorted_insertionSort _ arr
  have hdist : distinctPrios (List.insertionSort (fun a b : PQ_Node => a.priority ≤ b.priority) arr) := by
    have hp := List.perm_insertionSort (fun a b : PQ_Node => a.priority ≤ b.priority) arr
    exact (hp.pairwise_iff (fun hne => Ne.symm hne)).mpr hd
  have := hsorted.and hdist
  exact this.imp (fun hab => lt_of_le_of_ne hab.1 hab.2)

/-! ## Claims -/

/-- Claim C1: for every heap obtained from `PQ_create` by any finite sequence
of `PQ_enqueue` and `PQ_dequeue` calls (the latter performed only when
`current_size > 0`), and for every live index `i` with
`0 < i < current_size`, the priority at the parent index `(i-1)/2` is at
most the priority at index `i`. -/
theorem claim_C1 (q : PQ_pq) (hreach : ReachableED q) :
    ∀ i, 0 < i → i < q.current_size →
      prioL q.heap ((i - 1) / 2) ≤ prioL q.heap i := by
  intro i h1 h2
  exact (reachableED_inv q hreach).2.2 i h1 h2

/-- Witness for C1: the heap built by enqueueing priorities 7 then 2 is
heap-ordered at index 1. -/
theorem claim_C1_witness :
    prioL (PQ_enqueue (PQ_enqueue PQ_create 3 7) 4 2).heap ((1 - 1) / 2)
      ≤ prioL (PQ_enqueue (PQ_enqueue PQ_create 3 7) 4 2).heap 1 := by
  have hr1 : ReachableED (PQ_enqueue PQ_create 3 7) :=
    ReachableED.enqueue PQ_create 3 7 ReachableED.create
  have hr2 : ReachableED (PQ_enqueue (PQ_enqueue PQ_create 3 7) 4 2) :=
    ReachableED.enqueue _ 4 2 hr1
  apply claim_C1 _ hr2 1 (by norm_num)
  have h1 := (PQ_enqueue_spec PQ_create 3 7 PQInv_create).2.1
  have h2 := (PQ_enqueue_spec (PQ_enqueue PQ_create 3 7) 4 2
    (reachableED_inv _ hr1)).2.1
  rw [h2, h1]
  norm_num [PQ_create]

/-- Claim C2: inserting elements with pairwise distinct priorities in any
order `σ` into a fresh heap and then dequeuing `n` times yields the
payloads in increasing priority order (`es` is the priority-sorted
enumeration of the inserted elements). -/
theorem claim_C2 (es σ : List PQ_Node) (hperm : σ.Perm es)
    (hsorted : List.Chain' prioLT es) :
    dequeueAll es.length (insertAll σ PQ_create) = es.map PQ_Node.data := by
  haveI : IsTrans PQ_Node prioLT := ⟨fun a b c h1 h2 => lt_trans h1 h2⟩
  have hpair : List.Pairwise prioLT es := List.chain'_iff_pairwise.mp hsorted
  obtain ⟨hInv, hcs, -, hlive, -⟩ := insertAll_spec σ PQ_create PQInv_create
  apply dequeueAll_sorted es _ hInv
  · rw [hcs]
    have : live PQ_create = [] := rfl
    simp [PQ_create]
    exact hperm.length_eq
  · have hlc : live PQ_create = [] := rfl
    rw [hlc, List.append_nil] at hlive
    exact hlive.trans hperm
  · exact hpair

/-- Witness for C2: inserting priorities 2, 3, 1 and extracting three times
yields the payloads in priority order 1, 2, 3. -/
theorem claim_C2_witness :
    ([⟨20, 2⟩, ⟨30, 3⟩, ⟨10, 1⟩] : List PQ_Node).Perm [⟨10, 1⟩, ⟨20, 2⟩, ⟨30, 3⟩] ∧
    dequeueAll ([⟨10, 1⟩, ⟨20, 2⟩, ⟨30, 3⟩] : List PQ_Node).length
        (insertAll [⟨20, 2⟩, ⟨30, 3⟩, ⟨10, 1⟩] PQ_create)
      = ([⟨10, 1⟩, ⟨20, 2⟩, ⟨30, 3⟩] : List PQ_Node).map PQ_Node.data := by
  constructor
  · decide
  · exact claim_C2 [⟨10, 1⟩, ⟨20, 2⟩, ⟨30, 3⟩] [⟨20, 2⟩, ⟨30, 3⟩, ⟨10, 1⟩]
      (by decide) (by norm_num [List.chain'_cons, prioLT])

/-- Claim C9: every state reachable from `PQ_create` or `PQ_heapify` through
`PQ_enqueue` and `PQ_dequeue` (the latter with `current_size > 0`) has
`current_size ≤ capacity` (as a `Nat`, `current_size` is also `≥ 0`); the
guard of `_check_size` fires only when `current_size = capacity`, so its
assignment of `capacity` into `current_size` never changes the element
count; and `PQ_enqueue` always increases `current_size` by exactly one. -/
theorem claim_C9 (q : PQ_pq) (hreach : Reachable q) :
    q.current_size ≤ q.capacity ∧
    (q.current_size + 1 > q.capacity → q.current_size = q.capacity) ∧
    (_check_size q).current_size = q.current_size ∧
    (∀ d p, (PQ_enqueue q d p).current_size = q.current_size + 1) := by
  have hInv := reachable_inv q hreach
  refine ⟨hInv.2.1, fun h => ?_, (check_size_spec hInv.2.1).1,
    fun d p => (PQ_enqueue_spec q d p hInv).2.1⟩
  have := hInv.2.1
  omega

/-- Witness for C9: the freshly created heap. -/
theorem claim_C9_witness :
    PQ_create.current_size ≤ PQ_create.capacity ∧
    (_check_size PQ_create).current_size = PQ_create.current_size :=
  ⟨(claim_C9 PQ_create Reachable.create).1, (claim_C9 PQ_create Reachable.create).2.2.1⟩

/-- Claim C3: on a well-formed heap with `current_size > 0`, `PQ_dequeue`
returns the payload of the root element, whose priority is minimal among
all live elements, and the new state is obtained by moving the element at
index `current_size - 1` into index 0, decrementing `current_size`, and
running sift-down from index 0 (`dequeuedState` spells out exactly that
intermediate state). -/
theorem claim_C3 (q : PQ_pq) (hq : PQInv q) (hpos : 0 < q.current_size) :
    PQ_dequeue q = some ((nth q.heap 0).data, _shift_down 0 (dequeuedState q)) ∧
    (_shift_down 0 (dequeuedState q)).current_size = q.current_size - 1 ∧
    (∀ j, j < q.current_size → prioL q.heap 0 ≤ prioL q.heap j) := by
  obtain ⟨hdeq, -, hcs, -, -⟩ := PQ_dequeue_spec q hq hpos
  exact ⟨hdeq, hcs, HO_root_min hq.2.2⟩

/-- Witness for C3: dequeuing the one-element heap holding payload 5 at
priority 1 returns 5 and empties the heap. -/
theorem claim_C3_witness :
    PQ_dequeue ⟨1, 10, [⟨5, 1⟩]⟩ = some (5, ⟨0, 10, [⟨5, 1⟩]⟩) := by
  have hq : PQInv ⟨1, 10, [⟨5, 1⟩]⟩ := by
    refine ⟨by norm_num, by norm_num, ?_⟩
    intro j h1 h2
    simp only [] at h2
    omega
  have h := (claim_C3 ⟨1, 10, [⟨5, 1⟩]⟩ hq (by norm_num)).1
  rw [h]
  have hstop : _shift_down 0 (dequeuedState ⟨1, 10, [⟨5, 1⟩]⟩)
      = dequeuedState ⟨1, 10, [⟨5, 1⟩]⟩ :=
    shift_down_stop (by decide)
  rw [hstop]
  decide

/-- Claim C4: on a well-formed heap with `current_size > 0`, `PQ_peek`
returns the payload of the element at index 0, whose priority is minimal
among all live elements.  The source of `PQ_peek` performs no write at all,
so it is embedded as a pure read and cannot change `current_size`,
`capacity` or any stored element. -/
theorem claim_C4 (q : PQ_pq) (hq : PQInv q) (hpos : 0 < q.current_size) :
    PQ_peek q = some ((nth q.heap 0).data) ∧
    (∀ j, j < q.current_size → prioL q.heap 0 ≤ prioL q.heap j) := by
  constructor
  · unfold PQ_peek
    have h0l : 0 < q.heap.length := lt_of_lt_of_le hpos hq.1
    rw [List.getElem?_eq_getElem h0l]
    simp [nth, List.getElem?_eq_getElem h0l]
  · exact HO_root_min hq.2.2

/-- Witness for C4: peeking the one-element heap holding payload 5. -/
theorem claim_C4_witness : PQ_peek ⟨1, 10, [⟨5, 1⟩]⟩ = some 5 := by
  have hq : PQInv ⟨1, 10, [⟨5, 1⟩]⟩ := by
    refine ⟨by norm_num, by norm_num, ?_⟩
    intro j h1 h2
    simp only [] at h2
    omega
  have h := (claim_C4 ⟨1, 10, [⟨5, 1⟩]⟩ hq (by norm_num)).1
  rw [h]
  decide

/-- Counterexample to claim C5 as stated: on the freshly created heap
(`current_size = 0`) the reference `PQ_peek` performs no emptiness check;
it immediately reads slot 0 of the backing array, an out-of-bounds access
(modelled as `none`).  No `EmptyQueueError` value exists anywhere in the
code, so the claim that an explicit error is returned after a check "at
the start of the operation" is false of this implementation. -/
theorem claim_C5_counterexample : PQ_peek PQ_create = none := rfl

/-- Claim C5 (amended): the reference implementation has no emptiness
check.  `PQ_dequeue` on any state with `current_size == 0` attempts the
read `heap[current_size - 1] = heap[-1]`, an out-of-bounds access
(modelled as `none`), and `PQ_peek`/`PQ_dequeue` on the freshly created
heap read slot 0 of an array with no initialized slot (`none`).  The
spec's `EmptyQueueError` is a requirement on reimplementations only; the
code under verification exhibits the out-of-bounds behavior the spec
itself attributes to the reference. -/
theorem claim_C5_amended :
    (∀ q : PQ_pq, q.current_size = 0 → PQ_dequeue q = none) ∧
    PQ_peek PQ_create = none ∧ PQ_dequeue PQ_create = none := by
  refine ⟨?_, rfl, rfl⟩
  intro q hcs
  unfold PQ_dequeue _PQ_dequeue
  have hgetI : getI q.heap ((q.current_size : Int) - 1) = none := by
    unfold getI
    rw [if_pos (by rw [hcs]; norm_num)]
  rw [hgetI]
  cases q.heap[0]? <;> rfl

/-- Witness for C5 (amended): a state with a stale initialized slot but
`current_size = 0` still fails the dequeue with an out-of-bounds read. -/
theorem claim_C5_witness : PQ_dequeue ⟨0, 10, [⟨1, 1⟩]⟩ = none :=
  claim_C5_amended.1 ⟨0, 10, [⟨1, 1⟩]⟩ rfl

/-! ## Claim C6 -/

theorem smallestIdx_eq_spec (q : PQ_pq) (i : Nat) : smallestIdx q i = smallestSpec q i := by
  unfold smallestIdx smallestSpec
  by_cases hl : _left_child i ≤ q.current_size <;>
    by_cases hr : _right_child i ≤ q.current_size
  · have hf : List.filter (fun j => j ≤ q.current_size) [_left_child i, _right_child i]
        = [_left_child i, _right_child i] := by
      simp [List.filter, hl, hr]
    rw [hf]
    simp only [List.foldl_cons, List.foldl_nil]
    have e1 : (if _left_child i ≤ q.current_size ∧ prioL q.heap (_left_child i) < prioL q.heap i
          then _left_child i else i)
        = (if prioL q.heap (_left_child i) < prioL q.heap i then _left_child i else i) := by
      by_cases hP : prioL q.heap (_left_child i) < prioL q.heap i
      · rw [if_pos (And.intro hl hP), if_pos hP]
      · rw [if_neg (fun hc => hP hc.2), if_neg hP]
    rw [e1]
    by_cases hQ : prioL q.heap (_right_child i)
        < prioL q.heap (if prioL q.heap (_left_child i) < prioL q.heap i then _left_child i else i)
    · rw [if_pos (And.intro hr hQ), if_pos hQ]
    · rw [if_neg (fun hc => hQ hc.2), if_neg hQ]
  · have hf : List.filter (fun j => j ≤ q.current_size) [_left_child i, _right_child i]
        = [_left_child i] := by
      simp [List.filter, hl, hr]
    rw [hf]
    simp only [List.foldl_cons, List.foldl_nil]
    have e1 : (if _left_child i ≤ q.current_size ∧ prioL q.heap (_left_child i) < prioL q.heap i
          then _left_child i else i)
        = (if prioL q.heap (_left_child i) < prioL q.heap i then _left_child i else i) := by
      by_cases hP : prioL q.heap (_left_child i) < prioL q.heap i
      · rw [if_pos (And.intro hl hP), if_pos hP]
      · rw [if_neg (fun hc => hP hc.2), if_neg hP]
    rw [e1, if_neg (fun hc => hr hc.1)]
  · have hf : List.filter (fun j => j ≤ q.current_size) [_left_child i, _right_child i]
        = [_right_child i] := by
      simp [List.filter, hl, hr]
    rw [hf]
    simp only [List.foldl_cons, List.foldl_nil]
    have e1 : (if _left_child i ≤ q.current_size ∧ prioL q.heap (_left_child i) < prioL q.heap i
          then _left_child i else i) = i := if_neg (fun hc => hl hc.1)
    rw [e1]
    by_cases hQ : prioL q.heap (_right_child i) < prioL q.heap i
    · rw [if_pos (And.intro hr hQ), if_pos hQ]
    · rw [if_neg (fun hc => hQ hc.2), if_neg hQ]
  · have hf : List.filter (fun j => j ≤ q.current_size) [_left_child i, _right_child i]
        = [] := by
      simp [List.filter, hl, hr]
    rw [hf]
    simp only [List.foldl_nil]
    have e1 : (if _left_child i ≤ q.current_size ∧ prioL q.heap (_left_child i) < prioL q.heap i
          then _left_child i else i) = i := if_neg (fun hc => hl hc.1)
    rw [e1, if_neg (fun hc => hr hc.1)]

/-- Counterexample to claim C6 as stated: the claim's guard examines a child
only within `[0, count-1]`, but the code's guard is `child <= count`.  On a
heap with `current_size = 1` whose slot 1 (one past the live region) holds a
smaller priority, the code as written swaps with slot 1 while the claimed
strict-guard variant does not. -/
theorem claim_C6_counterexample :
    _shift_down 0 ⟨1, 10, [⟨0, 5⟩, ⟨1, 1⟩]⟩
      ≠ _shift_down_strict 0 ⟨1, 10, [⟨0, 5⟩, ⟨1, 1⟩]⟩ := by
  have hL : _shift_down 0 ⟨1, 10, [⟨0, 5⟩, ⟨1, 1⟩]⟩ = ⟨1, 10, [⟨1, 1⟩, ⟨0, 5⟩]⟩ := by
    rw [shift_down_step (show (0 : Nat) ≠ smallestIdx ⟨1, 10, [⟨0, 5⟩, ⟨1, 1⟩]⟩ 0 by decide)]
    rw [shift_down_stop (show smallestIdx ⟨1, 10, [⟨0, 5⟩, ⟨1, 1⟩]⟩ 0
      = smallestIdx { PQ_pq.mk 1 10 [⟨0, 5⟩, ⟨1, 1⟩] with
          heap := swapL [⟨0, 5⟩, ⟨1, 1⟩] 0 (smallestIdx ⟨1, 10, [⟨0, 5⟩, ⟨1, 1⟩]⟩ 0) }
          (smallestIdx ⟨1, 10, [⟨0, 5⟩, ⟨1, 1⟩]⟩ 0) by decide)]
    decide
  have hR : _shift_down_strict 0 ⟨1, 10, [⟨0, 5⟩, ⟨1, 1⟩]⟩ = ⟨1, 10, [⟨0, 5⟩, ⟨1, 1⟩]⟩ :=
    shift_down_strict_stop (by decide)
  rw [hL, hR]
  decide

/-- Claim C6 (amended): one step of `_shift_down` at `i` computes `max_i` as
the first index of minimum priority among the examined candidates, where a
child index is examined when it passes the code's guard
`child <= current_size` (not the claim's `child <= current_size - 1`); ties
go to the earliest examined candidate (`i` beats both children, left beats
right); if `max_i = i` the procedure stops, otherwise it swaps slots `i`
and `max_i` and continues from `max_i`. -/
theorem claim_C6_amended : ∀ (q : PQ_pq) (i : Nat),
    smallestIdx q i = smallestSpec q i ∧
    smallestSpec q i ∈ candidates q i ∧
    (∀ j ∈ candidates q i, prioL q.heap (smallestSpec q i) ≤ prioL q.heap j) ∧
    (smallestIdx q i ≠ i → prioL q.heap (smallestIdx q i) < prioL q.heap i) ∧
    (smallestIdx q i = _right_child i → _left_child i ≤ q.current_size →
      prioL q.heap (_right_child i) < prioL q.heap (_left_child i)) ∧
    (_shift_down i q = if i ≠ smallestIdx q i
      then _shift_down (smallestIdx q i) { q with heap := swapL q.heap i (smallestIdx q i) }
      else q) := by
  intro q i
  have heq := smallestIdx_eq_spec q i
  refine ⟨heq, ?_, ?_, ?_, ?_, ?_⟩
  · rw [← heq]
    rcases smallestIdx_choices q i with hc | hc | hc
    · rw [hc]
      exact List.mem_cons_self _ _
    · have hne : smallestIdx q i ≠ i := by
        rw [hc]; simp only [_left_child]; omega
      obtain ⟨-, hle, -⟩ := smallestIdx_ne q i hne
      rw [hc] at hle ⊢
      simp [candidates, List.filter, hle]
    · have hne : smallestIdx q i ≠ i := by
        rw [hc]; simp only [_right_child]; omega
      obtain ⟨-, hle, -⟩ := smallestIdx_ne q i hne
      rw [hc] at hle ⊢
      have hll : _left_child i ≤ q.current_size := by
        simp only [_left_child, _right_child] at hle ⊢
        omega
      simp [candidates, List.filter, hle, hll]
  · intro j hj
    rw [← heq]
    simp only [candidates, List.mem_cons, List.mem_filter, List.mem_cons,
      List.not_mem_nil, or_false, decide_eq_true_eq] at hj
    rcases hj with hj | ⟨hj | hj, hle⟩
    · rw [hj]
      exact smallestIdx_le_i q i
    · rw [hj]
      exact smallestIdx_le_l q i (by rw [← hj]; exact hle)
    · rw [hj]
      exact smallestIdx_le_r q i (by rw [← hj]; exact hle)
  · intro hne
    exact (smallestIdx_ne q i hne).2.2
  · intro hrsel hlle
    have hlr : _left_child i ≠ _right_child i := by
      simp only [_left_child, _right_child]
      omega
    have hir : i ≠ _right_child i := by
      simp only [_right_child]
      omega
    unfold smallestIdx at hrsel
    by_cases h2 : _left_child i ≤ q.current_size ∧ prioL q.heap (_left_child i) < prioL q.heap i
    · rw [if_pos h2] at hrsel
      by_cases h1 : _right_child i ≤ q.current_size ∧
          prioL q.heap (_right_child i) < prioL q.heap (_left_child i)
      · exact h1.2
      · rw [if_neg h1] at hrsel
        exact absurd hrsel hlr
    · rw [if_neg h2] at hrsel
      by_cases h1 : _right_child i ≤ q.current_size ∧
          prioL q.heap (_right_child i) < prioL q.heap i
      · have hle2 : prioL q.heap i ≤ prioL q.heap (_left_child i) := by
          rcases not_and_or.mp h2 with hc | hc
          · exact absurd hlle hc
          · exact le_of_not_lt hc
        exact lt_of_lt_of_le h1.2 hle2
      · rw [if_neg h1] at hrsel
        exact absurd hrsel hir
  · rw [_shift_down]
    exact dite_eq_ite

/-- Witness for C6 (amended): the selected index of the counterexample heap
agrees with the argmin description. -/
theorem claim_C6_witness :
    smallestIdx ⟨1, 10, [⟨0, 5⟩, ⟨1, 1⟩]⟩ 0 = smallestSpec ⟨1, 10, [⟨0, 5⟩, ⟨1, 1⟩]⟩ 0 :=
  (claim_C6_amended ⟨1, 10, [⟨0, 5⟩, ⟨1, 1⟩]⟩ 0).1

/-! ## Claim C7 -/

/-! ## Step-evaluation helpers for concrete runs -/

theorem PQ_enqueue_eval (q q2 res : PQ_pq) (d p : Int)
    (h2 : { _check_size q with
        heap := writeAt (_check_size q).heap (_check_size q).current_size { data := d, priority := p } } = q2)
    (h3 : _shift_up q2.current_size q2 = res) :
    PQ_enqueue q d p = { res with current_size := res.current_size + 1 } := by
  subst h2
  subst h3
  rfl

theorem PQ_dequeue_eval (q q1 res : PQ_pq) (n last : PQ_Node)
    (h0 : q.heap[0]? = some n) (h1 : getI q.heap ((q.current_size : Int) - 1) = some last)
    (h2 : { q with heap := q.heap.set 0 last, current_size := q.current_size - 1 } = q1)
    (h3 : _shift_down 0 q1 = res) :
    PQ_dequeue q = some (n.data, res) := by
  unfold PQ_dequeue _PQ_dequeue
  rw [h0, h1]
  subst h2
  subst h3
  rfl

theorem dequeueAll_eval_cons {k : Nat} {q q' : PQ_pq} {d : Int}
    (h : PQ_dequeue q = some (d, q')) :
    dequeueAll (k + 1) q = d :: dequeueAll k q' := by
  rw [dequeueAll, h]

theorem shift_up_eval_step (i pi : Nat) (q q' res : PQ_pq)
    (hp : _parent i = pi) (h1 : 0 < i) (h2 : prioL q.heap pi > prioL q.heap i)
    (h3 : { q with heap := swapL q.heap pi i } = q')
    (h4 : _shift_up pi q' = res) : _shift_up i q = res := by
  subst hp
  rw [shift_up_step h1 h2, h3, h4]

theorem shift_down_eval_step (i s : Nat) (q q' res : PQ_pq)
    (hs : smallestIdx q i = s) (h1 : i ≠ s)
    (h2 : { q with heap := swapL q.heap i s } = q')
    (h3 : _shift_down s q' = res) : _shift_down i q = res := by
  rw [shift_down_step (by rw [hs]; exact h1), hs, h2, h3]

/-! ## Claim C7 -/

/-- Counterexample to claim C7 as stated: with two equal-priority elements,
building via `PQ_heapify [⟨0,1⟩, ⟨1,1⟩]` and inserting the same pairs in
the order `[⟨1,1⟩, ⟨0,1⟩]` give different extraction payload sequences
([0,1] versus [1,0]), so the round-trip equality fails for an arbitrary
insertion order when priorities are not distinct. -/
theorem claim_C7_counterexample :
    ([⟨1, 1⟩, ⟨0, 1⟩] : List PQ_Node).Perm [⟨0, 1⟩, ⟨1, 1⟩] ∧
    dequeueAll 2 (PQ_heapify [⟨0, 1⟩, ⟨1, 1⟩])
      ≠ dequeueAll 2 (insertAll [⟨1, 1⟩, ⟨0, 1⟩] PQ_create) := by
  have he1 : PQ_enqueue ⟨0, 2, []⟩ 0 1 = ⟨1, 2, [⟨0, 1⟩]⟩ :=
    PQ_enqueue_eval ⟨0, 2, []⟩ ⟨0, 2, [⟨0, 1⟩]⟩ ⟨0, 2, [⟨0, 1⟩]⟩ 0 1
      (by decide) (shift_up_stop (by decide))
  have he2 : PQ_enqueue ⟨1, 2, [⟨0, 1⟩]⟩ 1 1 = ⟨2, 2, [⟨0, 1⟩, ⟨1, 1⟩]⟩ :=
    PQ_enqueue_eval ⟨1, 2, [⟨0, 1⟩]⟩ ⟨1, 2, [⟨0, 1⟩, ⟨1, 1⟩]⟩ ⟨1, 2, [⟨0, 1⟩, ⟨1, 1⟩]⟩ 1 1
      (by decide) (shift_up_stop (by decide))
  have hd1 : PQ_dequeue ⟨2, 2, [⟨0, 1⟩, ⟨1, 1⟩]⟩ = some (0, ⟨1, 2, [⟨1, 1⟩, ⟨1, 1⟩]⟩) :=
    PQ_dequeue_eval ⟨2, 2, [⟨0, 1⟩, ⟨1, 1⟩]⟩ ⟨1, 2, [⟨1, 1⟩, ⟨1, 1⟩]⟩ ⟨1, 2, [⟨1, 1⟩, ⟨1, 1⟩]⟩
      ⟨0, 1⟩ ⟨1, 1⟩ (by decide) (by decide) (by decide) (shift_down_stop (by decide))
  have hd2 : PQ_dequeue ⟨1, 2, [⟨1, 1⟩, ⟨1, 1⟩]⟩ = some (1, ⟨0, 2, [⟨1, 1⟩, ⟨1, 1⟩]⟩) :=
    PQ_dequeue_eval ⟨1, 2, [⟨1, 1⟩, ⟨1, 1⟩]⟩ ⟨0, 2, [⟨1, 1⟩, ⟨1, 1⟩]⟩ ⟨0, 2, [⟨1, 1⟩, ⟨1, 1⟩]⟩
      ⟨1, 1⟩ ⟨1, 1⟩ (by decide) (by decide) (by decide) (shift_down_stop (by decide))
  have hA : dequeueAll 2 (PQ_heapify [⟨0, 1⟩, ⟨1, 1⟩]) = [0, 1] := by
    have hbase : PQ_heapify [⟨0, 1⟩, ⟨1, 1⟩] = PQ_enqueue (PQ_enqueue ⟨0, 2, []⟩ 0 1) 1 1 := rfl
    rw [hbase, he1, he2, dequeueAll_eval_cons hd1, dequeueAll_eval_cons hd2]
    rfl
  have hb1 : PQ_enqueue PQ_create 1 1 = ⟨1, 10, [⟨1, 1⟩]⟩ :=
    PQ_enqueue_eval PQ_create ⟨0, 10, [⟨1, 1⟩]⟩ ⟨0, 10, [⟨1, 1⟩]⟩ 1 1
      (by decide) (shift_up_stop (by decide))
  have hb2 : PQ_enqueue ⟨1, 10, [⟨1, 1⟩]⟩ 0 1 = ⟨2, 10, [⟨1, 1⟩, ⟨0, 1⟩]⟩ :=
    PQ_enqueue_eval ⟨1, 10, [⟨1, 1⟩]⟩ ⟨1, 10, [⟨1, 1⟩, ⟨0, 1⟩]⟩ ⟨1, 10, [⟨1, 1⟩, ⟨0, 1⟩]⟩ 0 1
      (by decide) (shift_up_stop (by decide))
  have hbd1 : PQ_dequeue ⟨2, 10, [⟨1, 1⟩, ⟨0, 1⟩]⟩ = some (1, ⟨1, 10, [⟨0, 1⟩, ⟨0, 1⟩]⟩) :=
    PQ_dequeue_eval ⟨2, 10, [⟨1, 1⟩, ⟨0, 1⟩]⟩ ⟨1, 10, [⟨0, 1⟩, ⟨0, 1⟩]⟩ ⟨1, 10, [⟨0, 1⟩, ⟨0, 1⟩]⟩
      ⟨1, 1⟩ ⟨0, 1⟩ (by decide) (by decide) (by decide) (shift_down_stop (by decide))
  have hbd2 : PQ_dequeue ⟨1, 10, [⟨0, 1⟩, ⟨0, 1⟩]⟩ = some (0, ⟨0, 10, [⟨0, 1⟩, ⟨0, 1⟩]⟩) :=
    PQ_dequeue_eval ⟨1, 10, [⟨0, 1⟩, ⟨0, 1⟩]⟩ ⟨0, 10, [⟨0, 1⟩, ⟨0, 1⟩]⟩ ⟨0, 10, [⟨0, 1⟩, ⟨0, 1⟩]⟩
      ⟨0, 1⟩ ⟨0, 1⟩ (by decide) (by decide) (by decide) (shift_down_stop (by decide))
  have hB : dequeueAll 2 (insertAll [⟨1, 1⟩, ⟨0, 1⟩] PQ_create) = [1, 0] := by
    have hbase : insertAll [⟨1, 1⟩, ⟨0, 1⟩] PQ_create
        = PQ_enqueue (PQ_enqueue PQ_create 1 1) 0 1 := rfl
    rw [hbase, hb1, hb2, dequeueAll_eval_cons hbd1, dequeueAll_eval_cons hbd2]
    rfl
  refine ⟨by decide, ?_⟩
  rw [hA, hB]
  decide

/-- Claim C7 (amended): `PQ_heapify arr` returns a heap whose backing
storage has capacity exactly `arr.length`, holding exactly the `arr.length`
input elements in heap order, built by `arr.length` sequential `PQ_enqueue`
calls in the given order (that is the definition of `PQ_heapify`); and when
the priorities are pairwise distinct, full extraction from the built heap
yields the same payload sequence as inserting the same pairs one at a time
in any order and then extracting fully. -/
theorem claim_C7_amended (arr : List PQ_Node) :
    (PQ_heapify arr).capacity = arr.length ∧
    (PQ_heapify arr).current_size = arr.length ∧
    HO (PQ_heapify arr).heap (PQ_heapify arr).current_size ∧
    (live (PQ_heapify arr)).Perm arr ∧
    (∀ σ, σ.Perm arr → distinctPrios arr →
      dequeueAll arr.length (PQ_heapify arr) = dequeueAll arr.length (insertAll σ PQ_create)) := by
  have hdef : PQ_heapify arr = insertAll arr ⟨0, arr.length, []⟩ := rfl
  have hbase : PQInv (⟨0, arr.length, []⟩ : PQ_pq) := by
    refine ⟨by simp, by simp, ?_⟩
    intro j hj0 hjm
    simp at hjm
  obtain ⟨hInv, hcs, -, hlive, hcapeq⟩ := insertAll_spec arr _ hbase
  have hlive' : (live (PQ_heapify arr)).Perm arr := by
    have he : live (⟨0, arr.length, []⟩ : PQ_pq) = [] := rfl
    rw [hdef]
    rw [he, List.append_nil] at hlive
    exact hlive
  have hcs' : (PQ_heapify arr).current_size = arr.length := by
    rw [hdef, hcs]
    simp
  refine ⟨?_, hcs', ?_, hlive', ?_⟩
  · rw [hdef, hcapeq (by simp)]
  · rw [hdef]
    exact hInv.2.2
  · intro σ hperm hdist
    obtain ⟨es, hes, hsort⟩ := exists_sorted_perm arr hdist
    have hlen : arr.length = es.length := hes.length_eq
    obtain ⟨hInv2, hcs2, -, hlive2, -⟩ := insertAll_spec σ PQ_create PQInv_create
    have h1 : dequeueAll es.length (PQ_heapify arr) = es.map PQ_Node.data := by
      apply dequeueAll_sorted es _ (by rw [hdef]; exact hInv)
      · rw [hcs', hlen]
      · exact hlive'.trans hes
      · exact hsort
    have h2 : dequeueAll es.length (insertAll σ PQ_create) = es.map PQ_Node.data := by
      apply dequeueAll_sorted es _ hInv2
      · rw [hcs2]
        have : live PQ_create = [] := rfl
        simp [PQ_create]
        rw [hperm.length_eq, hlen]
      · have hlc : live PQ_create = [] := rfl
        rw [hlc, List.append_nil] at hlive2
        exact (hlive2.trans hperm).trans hes
      · exact hsort
    rw [hlen, h1, h2]

/-- Witness for C7 (amended): two distinct-priority nodes built via heapify
and via reversed insertion extract identically. -/
theorem claim_C7_witness :
    dequeueAll ([⟨7, 3⟩, ⟨8, 1⟩] : List PQ_Node).length (PQ_heapify [⟨7, 3⟩, ⟨8, 1⟩])
      = dequeueAll ([⟨7, 3⟩, ⟨8, 1⟩] : List PQ_Node).length
          (insertAll [⟨8, 1⟩, ⟨7, 3⟩] PQ_create) :=
  (claim_C7_amended [⟨7, 3⟩, ⟨8, 1⟩]).2.2.2.2 [⟨8, 1⟩, ⟨7, 3⟩] (by decide) (by decide)

/-! ## Claim C8 -/

/-- Claim C8: `_check_size` runs before every insertion (it is the first
heap operation in `PQ_enqueue`, by definition); when
`current_size + 1 > capacity` it grows the storage by exactly
`PQ_INCREMENT_SIZE = 10` slots, leaving every initialized slot unchanged
(the `heap` field is untouched), and otherwise leaves the state unchanged;
consequently inserting the 30 distinct-priority nodes of `sigma30` into a
fresh heap of capacity 10 yields a heap-ordered state with 30 live
elements whose full extraction returns all 30 payloads in priority
order. -/
theorem claim_C8 :
    (∀ q : PQ_pq, q.current_size + 1 > q.capacity →
      _check_size q = { q with current_size := q.capacity, capacity := q.capacity + PQ_INCREMENT_SIZE }) ∧
    (∀ q : PQ_pq, ¬q.current_size + 1 > q.capacity → _check_size q = q) ∧
    (∀ q : PQ_pq, (_check_size q).heap = q.heap) ∧
    (insertAll sigma30 PQ_create).current_size = 30 ∧
    HO (insertAll sigma30 PQ_create).heap (insertAll sigma30 PQ_create).current_size ∧
    dequeueAll 30 (insertAll sigma30 PQ_create) = es30.map PQ_Node.data := by
  obtain ⟨hInv, hcs, -, hlive, -⟩ := insertAll_spec sigma30 PQ_create PQInv_create
  have hlen30 : es30.length = 30 := rfl
  have hperm30 : sigma30.Perm es30 := List.reverse_perm es30
  have hlens : sigma30.length = 30 := by
    rw [hperm30.length_eq, hlen30]
  have hcs30 : (insertAll sigma30 PQ_create).current_size = 30 := by
    rw [hcs, hlens]
    rfl
  refine ⟨?_, ?_, ?_, hcs30, hInv.2.2, ?_⟩
  · intro q hq
    unfold _check_size
    rw [if_pos hq]
  · intro q hq
    unfold _check_size
    rw [if_neg hq]
  · intro q
    unfold _check_size
    split_ifs <;> rfl
  · rw [← hlen30]
    apply dequeueAll_sorted es30 _ hInv
    · rw [hcs30, hlen30]
    · have hlc : live PQ_create = [] := rfl
      rw [hlc, List.append_nil] at hlive
      exact hlive.trans hperm30
    · decide

/-- Witness for C8: a full heap of capacity 10 grows to capacity 20, with
the element count left at 10. -/
theorem claim_C8_witness : _check_size ⟨10, 10, []⟩ = ⟨10, 20, []⟩ := by
  have h := claim_C8.1 ⟨10, 10, []⟩ (by norm_num)
  exact h.trans (by decide)

/-! ## Claim C10 -/

/-- Claim C10: during `_PQ_dequeue` on a heap whose decremented count is
`n ≥ 1`, sift-down with the code's lenient guard `child <= current_size`
computes exactly the same result as the strict-guard variant: the slot at
index `n` still holds the very node that was moved to the root (the heap
array is `h.set 0 (nth h n)`), so that slot's priority can never be
strictly smaller than the running minimum and the extra candidate is never
selected.  The full states agree, hence in particular the arrangement of
the `n` live elements at indices `0..n-1`. -/
theorem claim_C10 (h : List PQ_Node) (n : Nat) (q : PQ_pq) (hn : 1 ≤ n)
    (hcs : q.current_size = n) (hheap : q.heap = h.set 0 (nth h n))
    (hlen : n + 1 ≤ h.length) :
    _shift_down 0 q = _shift_down_strict 0 q := by
  apply shift_down_eq_strict
  · rw [hcs, hheap]
    simp only [List.length_set]
    omega
  · rw [hcs, hheap]
    have e0 : nth (h.set 0 (nth h n)) 0 = nth h n := nth_set_self (by omega)
    have en : nth (h.set 0 (nth h n)) n = nth h n := nth_set_ne (by omega)
    simp only [prioL, e0, en]
    exact le_refl _

/-- Witness for C10: the dequeue-intermediate state of a two-element heap. -/
theorem claim_C10_witness :
    _shift_down 0 ⟨1, 10, [⟨1, 2⟩, ⟨1, 2⟩]⟩ = _shift_down_strict 0 ⟨1, 10, [⟨1, 2⟩, ⟨1, 2⟩]⟩ :=
  claim_C10 [⟨0, 1⟩, ⟨1, 2⟩] 1 ⟨1, 10, [⟨1, 2⟩, ⟨1, 2⟩]⟩ (by norm_num) rfl (by decide) (by norm_num)
